import Mathlib

/-!
Verification of the Wall Chess game core (`lol.py`).

The file embeds, as executable Lean definitions, the parts of the program the
claims are about:

* the A* path search `a_star`, including its priority queue (modelled as a
  sorted insertion list ordered by ascending `f`; the source uses a binary
  heap whose comparison reduces to `f₁ < f₂`, and only the minimal-`f`
  extraction is observable), its visited set, and its parent-chain path
  reconstruction (modelled by carrying the reversed chain in each node);
* the game-state operations: `reset_game`, `handle_ai_turn`, the human move
  handler and the human wall-click handler from `main`, and the frame-level
  transition relation of the main loop.

Sets from the source (`walls`, `visited`) are modelled as lists used only
through membership, which matches how the source uses them.
-/

namespace WallChess

/-- A board cell, as the `(row, col)` integer pair used throughout the source. -/

abbrev Cell := Int × Int

/-- `BOARD_COLS = 9` from the source configuration block. -/
def BOARD_COLS : Int := 9

/-- `BOARD_ROWS = 9`. -/
def BOARD_ROWS : Int := 9

/-- `GOAL_ROWS = 2`. -/
def GOAL_ROWS : Int := 2

/-- `TOTAL_ROWS = BOARD_ROWS + GOAL_ROWS = 11`. -/
def TOTAL_ROWS : Int := BOARD_ROWS + GOAL_ROWS

/-- `MAX_WALLS_PER_PLAYER = 10`. -/
def MAX_WALLS_PER_PLAYER : Nat := 10

/-- `heuristic(node, goal_pos) = |row - goal_row| + |col - goal_col|`. -/
def heuristic (pos goalPos : Cell) : Nat :=
  (pos.1 - goalPos.1).natAbs + (pos.2 - goalPos.2).natAbs

/-- The four movement directions, in the order the source iterates them:
`[(1, 0), (-1, 0), (0, 1), (0, -1)]`. -/
def DIRS : List Cell := [(1, 0), (-1, 0), (0, 1), (0, -1)]

/-- A search node of `a_star`.  The source keeps a parent pointer; here
`rpath` is the list of cells obtained by walking parents back from this node
to (but excluding) the root, i.e. the cells the reconstruction at the goal
would collect, newest first.  The root node has `rpath = []`. -/
structure SNode where
  pos : Cell
  g : Nat
  rpath : List Cell
deriving DecidableEq

/-- The interior-bounds test of the neighbour filter:
`1 <= nr < TOTAL_ROWS - 1 and 0 <= nc < BOARD_COLS`. -/
def inInterior (c : Cell) : Prop :=
  1 ≤ c.1 ∧ c.1 < TOTAL_ROWS - 1 ∧ 0 ≤ c.2 ∧ c.2 < BOARD_COLS

instance (c : Cell) : Decidable (inInterior c) := by
  unfold inInterior; infer_instance

/-- The source's neighbour acceptance: a neighbour equal to the goal is always
kept; otherwise it must be in interior bounds and not a wall (goal test first,
bounds test second, wall test third, exactly as in the source). -/
def neighborKeep (goalPos : Cell) (walls : List Cell) (n : Cell) : Bool :=
  if n = goalPos then true
  else if ¬ inInterior n then false
  else if n ∈ walls then false
  else true

/-- Push one `(f, node)` entry into the frontier, kept as a list sorted by
ascending `f`; a new entry goes after existing entries of equal `f`.  This
realises the heap's observable contract: extraction returns a minimal-`f`
entry (the heap comparison on `(f, node)` tuples reduces to `f₁ < f₂`,
since the tie comparison `Node.__lt__` compares the equal `f` fields). -/
def pqPush (e : Nat × SNode) : List (Nat × SNode) → List (Nat × SNode)
  | [] => [e]
  | x :: t => if e.1 < x.1 then e :: x :: t else x :: pqPush e t

/-- Push a list of entries in order. -/
def pqPushAll (es : List (Nat × SNode)) (q : List (Nat × SNode)) :
    List (Nat × SNode) :=
  es.foldl (fun acc e => pqPush e acc) q

/-- The expansion of a popped node: for each direction in source order, form
the neighbour, keep it if it passes `neighborKeep`, compute
`g = cur.g + 1`, `h`, `f = g + h`, and retain it for pushing only when it is
not in the (just-updated) visited set. -/
def expandEntries (cur : SNode) (goalPos : Cell) (walls visited : List Cell) :
    List (Nat × SNode) :=
  DIRS.filterMap fun d =>
    let n : Cell := (cur.pos.1 + d.1, cur.pos.2 + d.2)
    if neighborKeep goalPos walls n ∧ n ∉ visited then
      some (cur.g + 1 + heuristic n goalPos, ⟨n, cur.g + 1, n :: cur.rpath⟩)
    else none

/-- The main loop of `a_star`, fuelled.  `none` means the fuel ran out (shown
below never to happen for the fuel used by `a_star`).  Each iteration pops the
minimal-`f` entry; if its cell is the goal it reconstructs the path from the
carried chain; otherwise it marks the cell visited and pushes the surviving
neighbour entries.  Exactly as in the source, a popped cell that is already
visited is *not* skipped: its neighbours are generated again. -/
def aStarLoop (goalPos : Cell) (walls : List Cell) :
    Nat → List (Nat × SNode) → List Cell → Option (List Cell)
  | 0, _, _ => none
  | _ + 1, [], _ => some []
  | fuel + 1, (_, cur) :: rest, visited =>
    if cur.pos = goalPos then some cur.rpath.reverse
    else
      aStarLoop goalPos walls fuel
        (pqPushAll (expandEntries cur goalPos walls (cur.pos :: visited)) rest)
        (cur.pos :: visited)

/-- The loop is proved below to pop at most `NBOUND = 84 ^ 83` entries on any
input (each pushed entry carries a duplicate-free chain of cells from a set
of at most 83 cells). -/
def NBOUND : Nat := 84 ^ 83

/-- Fuel for `a_star`, strictly more than the loop can ever consume. -/
def FUEL : Nat := NBOUND + 1

/-- `a_star(start_node, goal_pos, walls)`: the frontier starts as
`[(0, start_node)]`, the visited set empty; an exhausted frontier yields the
empty list. -/
def a_star (startPos goalPos : Cell) (walls : List Cell) : List Cell :=
  (aStarLoop goalPos walls FUEL [(0, ⟨startPos, 0, []⟩)] []).getD []

/-! ### The specification-side path notion

`ValidPath start goal walls l` says `l` is a sequence of unit cardinal steps
starting adjacent to `start`, ending on `goal`, all cells before the final
goal cell lying in interior rows/columns and avoiding the walls. -/

/-- One unit cardinal step. -/
def adjacent (a b : Cell) : Prop := ∃ d ∈ DIRS, b = (a.1 + d.1, a.2 + d.2)

instance (a b : Cell) : Decidable (adjacent a b) := by
  unfold adjacent; infer_instance

/-- A cell the search may step onto: the goal unconditionally, any other cell
only if interior and unwalled. -/
def okStep (goalPos : Cell) (walls : List Cell) (c : Cell) : Prop :=
  c = goalPos ∨ (inInterior c ∧ c ∉ walls)

instance (goalPos : Cell) (walls : List Cell) (c : Cell) :
    Decidable (okStep goalPos walls c) := by
  unfold okStep; infer_instance

/-- The path property the claims quantify over: a nonempty chain of unit
cardinal steps from `start` whose last cell is `goal`, every cell except the
final goal cell interior and unwalled. -/
def ValidPath (startPos goalPos : Cell) (walls : List Cell) (l : List Cell) :
    Prop :=
  l ≠ [] ∧ l.getLast? = some goalPos ∧ List.Chain adjacent startPos l ∧
    ∀ c ∈ l.dropLast, inInterior c ∧ c ∉ walls

/-! ### Priority queue lemmas -/

/-- The sortedness invariant of the frontier: ascending `f` values. -/
def PQSorted (q : List (Nat × SNode)) : Prop :=
  List.Pairwise (fun a b : Nat × SNode => a.1 ≤ b.1) q

/-- The last cell of the walk `s :: l`. -/
def lastOf (s : Cell) (l : List Cell) : Cell :=
  (s :: l).getLast (List.cons_ne_nil s l)

/-- A step-valid walk: a chain of unit steps from `s` whose cells are all
steppable under (`goalPos`, `walls`). -/
def WalkOk (goalPos : Cell) (walls : List Cell) (s : Cell) (l : List Cell) :
    Prop :=
  List.Chain adjacent s l ∧ ∀ c ∈ l, okStep goalPos walls c

/-- `c` is reachable from `startPos` by a step-valid walk of `n` steps. -/
def WalkTo (goalPos : Cell) (walls : List Cell) (startPos c : Cell) (n : Nat) :
    Prop :=
  ∃ l, WalkOk goalPos walls startPos l ∧ lastOf startPos l = c ∧ l.length = n

/-- Well-formedness of a frontier entry (relative to the search parameters
and the current visited set): the stored `f` is `g + h`, `g` counts the
carried chain, the chain is a step-valid walk from the start ending at the
entry's cell, no chain cell is the start, and every chain cell before the
entry's own was visited without being the goal. -/
structure EntryWF (startPos goalPos : Cell) (walls visited : List Cell)
    (e : Nat × SNode) : Prop where
  fval : e.1 = e.2.g + heuristic e.2.pos goalPos
  glen : e.2.g = e.2.rpath.length
  rne : e.2.rpath ≠ []
  rhead : e.2.rpath.head? = some e.2.pos
  rchain : List.Chain adjacent startPos e.2.rpath.reverse
  rok : ∀ c ∈ e.2.rpath, okStep goalPos walls c ∧ c ≠ startPos
  rtail : ∀ c ∈ e.2.rpath.tail, c ∈ visited ∧ c ≠ goalPos

/-- The loop invariant of `aStarLoop`, holding from the second iteration on:
a sorted well-formed frontier, the start visited, the goal never visited,
and a ghost table `gv` of settled costs with the two Dijkstra-style facts:
every steppable neighbour of a visited cell is visited or queued at cost at
most `gv + 1`, and every settled cost is optimal. -/
structure AInv (startPos goalPos : Cell) (walls : List Cell)
    (op : List (Nat × SNode)) (visited : List Cell) : Prop where
  sorted : PQSorted op
  entries : ∀ e ∈ op, EntryWF startPos goalPos walls visited e
  start_mem : startPos ∈ visited
  goal_not_mem : goalPos ∉ visited
  ghost : ∃ gv : Cell → Nat,
    (∀ c ∈ visited, ∀ d ∈ DIRS,
        okStep goalPos walls (c.1 + d.1, c.2 + d.2) →
        (c.1 + d.1, c.2 + d.2) ∈ visited ∨
        ∃ e ∈ op, e.2.pos = (c.1 + d.1, c.2 + d.2) ∧ e.2.g ≤ gv c + 1) ∧
    (∀ c ∈ visited, ∀ n, WalkTo goalPos walls startPos c n → gv c ≤ n)

/-- The 81 interior cells. -/
def interiorCells : List Cell :=
  (List.range 9).flatMap fun i =>
    (List.range 9).map fun j => ((Int.ofNat i + 1, Int.ofNat j) : Cell)

/-- The cells a pushed chain can mention. -/
def SCells (startPos goalPos : Cell) : List Cell :=
  startPos :: goalPos :: interiorCells

/-- Position of the first occurrence of a cell in a list (the list's length
when absent). -/
def cellIdx : List Cell → Cell → Nat
  | [], _ => 0
  | x :: t, c => if c = x then 0 else cellIdx t c + 1

/-- Base-`(|S| + 1)` code of a chain over `S`, digits `cellIdx + 1`. -/
def keyCode (S : List Cell) : List Cell → Nat
  | [] => 0
  | c :: t => (cellIdx S c + 1) + (S.length + 1) * keyCode S t

/-- The chain of an entry, including the start cell: this is exactly the
sequence of cells on the entry's parent chain, oldest first. -/
def keyOf (startPos : Cell) (nd : SNode) : List Cell :=
  startPos :: nd.rpath.reverse

/-- The ghost push/pop history invariant: every push over the whole run
carries a distinct chain, chains of queued entries plus popped chains are
exactly the pushed chains, every pushed chain is the root chain or extends a
popped chain by one cell, and every pushed chain is duplicate-free over the
83 relevant cells. -/
structure TInv (startPos goalPos : Cell) (op : List (Nat × SNode))
    (pushed popped : List (List Cell)) : Prop where
  nodup : pushed.Nodup
  perm : (op.map (fun e => keyOf startPos e.2) ++ popped).Perm pushed
  origin : ∀ k ∈ pushed, k = [startPos] ∨ (k ≠ [] ∧ k.dropLast ∈ popped)
  cellsOK : ∀ k ∈ pushed,
    k.Nodup ∧ ∀ c ∈ k, c ∈ SCells startPos goalPos

/-! ### The event trace of one `a_star` invocation

`aStarEvents` mirrors `aStarLoop` step for step and records, in order, each
cell popped from the priority queue (every non-goal pop generates the four
neighbours) and each cell pushed onto it. -/
inductive SEvent where
  | popCell (c : Cell)
  | pushCell (c : Cell)
deriving DecidableEq

def aStarEvents (goalPos : Cell) (walls : List Cell) :
    Nat → List (Nat × SNode) → List Cell → List SEvent
  | 0, _, _ => []
  | _ + 1, [], _ => []
  | fuel + 1, (_, cur) :: rest, visited =>
    if cur.pos = goalPos then [SEvent.popCell cur.pos]
    else
      SEvent.popCell cur.pos ::
        (((expandEntries cur goalPos walls (cur.pos :: visited)).map
          (fun e => SEvent.pushCell e.2.pos)) ++
        aStarEvents goalPos walls fuel
          (pqPushAll (expandEntries cur goalPos walls (cur.pos :: visited))
            rest)
          (cur.pos :: visited))

/-- The event trace of `a_star start goal walls`. -/
def a_star_events (startPos goalPos : Cell) (walls : List Cell) :
    List SEvent :=
  aStarEvents goalPos walls FUEL [(0, ⟨startPos, 0, []⟩)] []

/-- `player_goal = (TOTAL_ROWS - 1, BOARD_COLS // 2) = (10, 4)`; fixed by
`reset_game` and never mutated. -/
def player_goal : Cell := (TOTAL_ROWS - 1, 4)

/-- `ai_goal = (0, BOARD_COLS // 2) = (0, 4)`. -/
def ai_goal : Cell := (0, 4)

/-- The mutable game state dictionary of the source (the two fixed goal
positions are kept as the constants above). -/
structure GameState where
  player_pos : Cell
  ai_pos : Cell
  walls : List Cell
  player_walls_used : Nat
  ai_walls_used : Nat
  turn_counter : Nat
  game_over : Bool
  result_message : String
  player_moved : Bool
deriving DecidableEq

/-- `reset_game()`. -/
def reset_game : GameState :=
  { player_pos := (1, 4)
    ai_pos := (TOTAL_ROWS - 2, 4)
    walls := []
    player_walls_used := 0
    ai_walls_used := 0
    turn_counter := 0
    game_over := false
    result_message := ""
    player_moved := false }

/-- `set.add`: walls are a set used only through membership, so adding an
element is a no-op when it is already present. -/
def wallAdd (w : List Cell) (c : Cell) : List Cell :=
  if c ∈ w then w else c :: w

/-- The wall-placement block of `handle_ai_turn` (runs after the turn-counter
increment): if the acting side has budget and the opponent has a nonempty
path, try to wall its first step, committing only when both sides keep a
nonempty path under the candidate set. -/
def aiWallPhase (g : GameState) (is_player_ai : Bool) : GameState :=
  let walls_used := if is_player_ai then g.player_walls_used else g.ai_walls_used
  if walls_used < MAX_WALLS_PER_PLAYER then
    let opponent_pos := if is_player_ai then g.ai_pos else g.player_pos
    let opponent_goal := if is_player_ai then ai_goal else player_goal
    match a_star opponent_pos opponent_goal g.walls with
    | [] => g
    | block_pos :: _ =>
      let walls_candidate := wallAdd g.walls block_pos
      if a_star g.player_pos player_goal walls_candidate ≠ [] ∧
          a_star g.ai_pos ai_goal walls_candidate ≠ [] then
        if is_player_ai then
          { g with walls := walls_candidate
                   player_walls_used := g.player_walls_used + 1 }
        else
          { g with walls := walls_candidate
                   ai_walls_used := g.ai_walls_used + 1 }
      else g
  else g

/-- The movement block of `handle_ai_turn`: recompute the acting side's own
path against the current walls and step onto its first cell when nonempty. -/
def aiMovePhase (g : GameState) (is_player_ai : Bool) : GameState :=
  let current_ai_pos := if is_player_ai then g.player_pos else g.ai_pos
  let current_ai_goal := if is_player_ai then player_goal else ai_goal
  match a_star current_ai_pos current_ai_goal g.walls with
  | [] => g
  | step :: _ =>
    if is_player_ai then { g with player_pos := step }
    else { g with ai_pos := step }

/-- The win-condition block at the end of `handle_ai_turn`: the player's goal
condition is checked before the AI's.  The apostrophe in the second message
is written with the `\x27` escape. -/
def winCheck (g : GameState) (is_player_ai : Bool) : GameState :=
  if g.player_pos = player_goal then
    { g with
      result_message :=
        if is_player_ai then "Player AI reached the goal! Player AI wins!"
        else "You reached the AI\x27s goal! You win!"
      game_over := true }
  else if g.ai_pos = ai_goal then
    { g with result_message := "AI reached the goal! AI wins!"
             game_over := true }
  else g

/-- `handle_ai_turn(game_state, is_player_ai)`: increment the turn counter,
run the wall phase, the movement phase, then the win check, in source
order. -/
def handle_ai_turn (g : GameState) (is_player_ai : Bool) : GameState :=
  winCheck
    (aiMovePhase
      (aiWallPhase { g with turn_counter := g.turn_counter + 1 } is_player_ai)
      is_player_ai)
    is_player_ai

/-- The four WASD movement keys. -/
inductive MoveKey where
  | w | s | a | d
deriving DecidableEq

/-- The keydown handler for player movement in `main` (mode 0, game not over,
player not yet moved this frame): W and S accept a target equal to the
player's goal unconditionally, otherwise require the interior row bound and
no wall; A and D require the column bound and no wall. -/
def humanMove (g : GameState) (k : MoveKey) : GameState :=
  let row := g.player_pos.1
  let col := g.player_pos.2
  match k with
  | .w =>
    if (row - 1, col) = player_goal ∨
        (row > 1 ∧ (row - 1, col) ∉ g.walls) then
      { g with player_pos := (row - 1, col), player_moved := true }
    else g
  | .s =>
    if (row + 1, col) = player_goal ∨
        (row < TOTAL_ROWS - 2 ∧ (row + 1, col) ∉ g.walls) then
      { g with player_pos := (row + 1, col), player_moved := true }
    else g
  | .a =>
    if col > 0 ∧ (row, col - 1) ∉ g.walls then
      { g with player_pos := (row, col - 1), player_moved := true }
    else g
  | .d =>
    if col < BOARD_COLS - 1 ∧ (row, col + 1) ∉ g.walls then
      { g with player_pos := (row, col + 1), player_moved := true }
    else g

/-- The player wall-placement click handler in `main`: the clicked cell must
not be a current position or a goal cell, must not already be a wall, the
player must have budget, and the candidate set must leave both sides a
nonempty path; otherwise the state is unchanged. -/
def clickWall (g : GameState) (cell : Cell) : GameState :=
  if cell ∉ [g.player_pos, g.ai_pos, player_goal, ai_goal] then
    if cell ∈ g.walls then g
    else if MAX_WALLS_PER_PLAYER ≤ g.player_walls_used then g
    else
      let walls_candidate := wallAdd g.walls cell
      if a_star g.player_pos player_goal walls_candidate ≠ [] ∧
          a_star g.ai_pos ai_goal walls_candidate ≠ [] then
        { g with walls := walls_candidate
                 player_walls_used := g.player_walls_used + 1 }
      else g
  else g

/-- One mode-0 frame containing a keydown: the move handler runs; if the
player actually moved, `handle_ai_turn` runs in the same frame and the
`player_moved` flag is reset. -/
def mode0MoveFrame (g : GameState) (k : MoveKey) : GameState :=
  let g1 := humanMove g k
  if g1.player_moved then
    { handle_ai_turn g1 false with player_moved := false }
  else g1

/-- One mode-1 (AI vs AI) frame: the acting side alternates with the parity
of the turn counter. -/
def mode1Frame (g : GameState) : GameState :=
  if g.turn_counter % 2 = 0 then handle_ai_turn g true
  else handle_ai_turn g false

/-- The frame-level transition relation of the main loop.  The first
component of a configuration is the game mode (0 = player vs AI,
1 = AI vs AI).  Move and click frames require mode 0, the game not over and
the player-moved flag clear (as the event guards do); AI-vs-AI frames
require mode 1 and the game not over; the three game-over buttons all
produce a fresh `reset_game`, with the mode kept, toggled, or rechosen. -/
inductive Step : Nat × GameState → Nat × GameState → Prop where
  | hmove (g : GameState) (k : MoveKey) :
      g.game_over = false → g.player_moved = false →
      Step (0, g) (0, mode0MoveFrame g k)
  | hclick (g : GameState) (cell : Cell) :
      g.game_over = false → g.player_moved = false →
      Step (0, g) (0, clickWall g cell)
  | aiframe (g : GameState) :
      g.game_over = false → Step (1, g) (1, mode1Frame g)
  | replay (m : Nat) (g : GameState) :
      g.game_over = true → Step (m, g) (m, reset_game)
  | modeswitch (m : Nat) (g : GameState) :
      g.game_over = true → Step (m, g) (1 - m, reset_game)
  | home (m : Nat) (g : GameState) (mNew : Nat) :
      g.game_over = true → mNew = 0 ∨ mNew = 1 →
      Step (m, g) (mNew, reset_game)

/-- A configuration reachable from a fresh game in either mode. -/
def Reachable (p : Nat × GameState) : Prop :=
  ∃ m0, (m0 = 0 ∨ m0 = 1) ∧
    Relation.ReflTransGen Step (m0, reset_game) p

/-- The invariant maintained at reachable states: wall budgets respected, a
side's position is in the wall set only when it stands on its own goal, and
while the game is not over the player is on an interior cell. -/
def StateInv (g : GameState) : Prop :=
  g.player_walls_used ≤ MAX_WALLS_PER_PLAYER ∧
  g.ai_walls_used ≤ MAX_WALLS_PER_PLAYER ∧
  (g.player_pos ∈ g.walls → g.player_pos = player_goal) ∧
  (g.ai_pos ∈ g.walls → g.ai_pos = ai_goal) ∧
  (g.game_over = false → inInterior g.player_pos)

/-- The mid-frame weakening of `StateInv` that holds right after a keydown
(the player may stand on its goal with the flag not yet set). -/
def MidInv (g : GameState) : Prop :=
  g.player_walls_used ≤ MAX_WALLS_PER_PLAYER ∧
  g.ai_walls_used ≤ MAX_WALLS_PER_PLAYER ∧
  (g.player_pos ∈ g.walls → g.player_pos = player_goal) ∧
  (g.ai_pos ∈ g.walls → g.ai_pos = ai_goal) ∧
  (inInterior g.player_pos ∨ g.player_pos = player_goal)

/-- Per-key movement target of the WASD handler. -/
def moveTarget (g : GameState) : MoveKey → Cell
  | .w => (g.player_pos.1 - 1, g.player_pos.2)
  | .s => (g.player_pos.1 + 1, g.player_pos.2)
  | .a => (g.player_pos.1, g.player_pos.2 - 1)
  | .d => (g.player_pos.1, g.player_pos.2 + 1)

/-! ### A concrete 27-frame mode-0 run (counterexample trace)

The states below replay a full game: six initial wall clicks, then
alternating keydown frames and clicks.  The run ends with the player walking
onto its own goal cell after the AI has walled that very cell, so the final
wall set contains the player's goal — and the player's position. -/
def cexS1 : GameState :=
  ⟨(1, 4), (9, 4), [(4, 3)], 1, 0, 0, false, "", false⟩

def cexS2 : GameState :=
  ⟨(1, 4), (9, 4), [(9, 5), (4, 3)], 2, 0, 0, false, "", false⟩

def cexS3 : GameState :=
  ⟨(1, 4), (9, 4), [(2, 5), (9, 5), (4, 3)], 3, 0, 0, false, "", false⟩

def cexS4 : GameState :=
  ⟨(1, 4), (9, 4), [(1, 3), (2, 5), (9, 5), (4, 3)], 4, 0, 0, false, "", false⟩

def cexS5 : GameState :=
  ⟨(1, 4), (9, 4), [(1, 5), (1, 3), (2, 5), (9, 5), (4, 3)], 5, 0, 0, false, "", false⟩

def cexS6 : GameState :=
  ⟨(1, 4), (9, 4), [(2, 3), (1, 5), (1, 3), (2, 5), (9, 5), (4, 3)], 6, 0, 0, false, "", false⟩

def cexS7 : GameState :=
  ⟨(2, 4), (8, 4), [(2, 3), (1, 5), (1, 3), (2, 5), (9, 5), (4, 3)], 6, 0, 1, false, "", false⟩

def cexS8 : GameState :=
  ⟨(2, 4), (8, 4), [(3, 3), (2, 3), (1, 5), (1, 3), (2, 5), (9, 5), (4, 3)], 7, 0, 1, false, "", false⟩

def cexS9 : GameState :=
  ⟨(2, 4), (8, 4), [(3, 5), (3, 3), (2, 3), (1, 5), (1, 3), (2, 5), (9, 5), (4, 3)], 8, 0, 1, false, "", false⟩

def cexS10 : GameState :=
  ⟨(3, 4), (7, 4), [(3, 5), (3, 3), (2, 3), (1, 5), (1, 3), (2, 5), (9, 5), (4, 3)], 8, 0, 2, false, "", false⟩

def cexS11 : GameState :=
  ⟨(3, 4), (7, 4), [(7, 3), (3, 5), (3, 3), (2, 3), (1, 5), (1, 3), (2, 5), (9, 5), (4, 3)], 9, 0, 2, false, "", false⟩

def cexS12 : GameState :=
  ⟨(3, 4), (7, 4), [(6, 4), (7, 3), (3, 5), (3, 3), (2, 3), (1, 5), (1, 3), (2, 5), (9, 5), (4, 3)], 10, 0, 2, false, "", false⟩

def cexS13 : GameState :=
  ⟨(4, 4), (7, 5), [(5, 4), (6, 4), (7, 3), (3, 5), (3, 3), (2, 3), (1, 5), (1, 3), (2, 5), (9, 5), (4, 3)], 10, 1, 3, false, "", false⟩

def cexS14 : GameState :=
  ⟨(4, 5), (6, 5), [(5, 5), (5, 4), (6, 4), (7, 3), (3, 5), (3, 3), (2, 3), (1, 5), (1, 3), (2, 5), (9, 5), (4, 3)], 10, 2, 4, false, "", false⟩

def cexS15 : GameState :=
  ⟨(4, 6), (6, 6), [(5, 6), (5, 5), (5, 4), (6, 4), (7, 3), (3, 5), (3, 3), (2, 3), (1, 5), (1, 3), (2, 5), (9, 5), (4, 3)], 10, 3, 5, false, "", false⟩

def cexS16 : GameState :=
  ⟨(4, 7), (6, 7), [(5, 7), (5, 6), (5, 5), (5, 4), (6, 4), (7, 3), (3, 5), (3, 3), (2, 3), (1, 5), (1, 3), (2, 5), (9, 5), (4, 3)], 10, 4, 6, false, "", false⟩

def cexS17 : GameState :=
  ⟨(4, 8), (6, 8), [(5, 7), (5, 6), (5, 5), (5, 4), (6, 4), (7, 3), (3, 5), (3, 3), (2, 3), (1, 5), (1, 3), (2, 5), (9, 5), (4, 3)], 10, 4, 7, false, "", false⟩

def cexS18 : GameState :=
  ⟨(5, 8), (5, 8), [(5, 7), (5, 6), (5, 5), (5, 4), (6, 4), (7, 3), (3, 5), (3, 3), (2, 3), (1, 5), (1, 3), (2, 5), (9, 5), (4, 3)], 10, 4, 8, false, "", false⟩

def cexS19 : GameState :=
  ⟨(6, 8), (4, 8), [(7, 8), (5, 7), (5, 6), (5, 5), (5, 4), (6, 4), (7, 3), (3, 5), (3, 3), (2, 3), (1, 5), (1, 3), (2, 5), (9, 5), (4, 3)], 10, 5, 9, false, "", false⟩

def cexS20 : GameState :=
  ⟨(6, 7), (4, 7), [(7, 7), (7, 8), (5, 7), (5, 6), (5, 5), (5, 4), (6, 4), (7, 3), (3, 5), (3, 3), (2, 3), (1, 5), (1, 3), (2, 5), (9, 5), (4, 3)], 10, 6, 10, false, "", false⟩

def cexS21 : GameState :=
  ⟨(6, 6), (4, 6), [(7, 6), (7, 7), (7, 8), (5, 7), (5, 6), (5, 5), (5, 4), (6, 4), (7, 3), (3, 5), (3, 3), (2, 3), (1, 5), (1, 3), (2, 5), (9, 5), (4, 3)], 10, 7, 11, false, "", false⟩

def cexS22 : GameState :=
  ⟨(6, 5), (4, 5), [(7, 6), (7, 7), (7, 8), (5, 7), (5, 6), (5, 5), (5, 4), (6, 4), (7, 3), (3, 5), (3, 3), (2, 3), (1, 5), (1, 3), (2, 5), (9, 5), (4, 3)], 10, 7, 12, false, "", false⟩

def cexS23 : GameState :=
  ⟨(7, 5), (4, 4), [(8, 5), (7, 6), (7, 7), (7, 8), (5, 7), (5, 6), (5, 5), (5, 4), (6, 4), (7, 3), (3, 5), (3, 3), (2, 3), (1, 5), (1, 3), (2, 5), (9, 5), (4, 3)], 10, 8, 13, false, "", false⟩

def cexS24 : GameState :=
  ⟨(7, 4), (3, 4), [(8, 5), (7, 6), (7, 7), (7, 8), (5, 7), (5, 6), (5, 5), (5, 4), (6, 4), (7, 3), (3, 5), (3, 3), (2, 3), (1, 5), (1, 3), (2, 5), (9, 5), (4, 3)], 10, 8, 14, false, "", false⟩

def cexS25 : GameState :=
  ⟨(8, 4), (2, 4), [(8, 5), (7, 6), (7, 7), (7, 8), (5, 7), (5, 6), (5, 5), (5, 4), (6, 4), (7, 3), (3, 5), (3, 3), (2, 3), (1, 5), (1, 3), (2, 5), (9, 5), (4, 3)], 10, 8, 15, false, "", false⟩

def cexS26 : GameState :=
  ⟨(9, 4), (1, 4), [(10, 4), (8, 5), (7, 6), (7, 7), (7, 8), (5, 7), (5, 6), (5, 5), (5, 4), (6, 4), (7, 3), (3, 5), (3, 3), (2, 3), (1, 5), (1, 3), (2, 5), (9, 5), (4, 3)], 10, 9, 16, false, "", false⟩

def cexS27 : GameState :=
  ⟨(10, 4), (0, 4), [(10, 4), (8, 5), (7, 6), (7, 7), (7, 8), (5, 7), (5, 6), (5, 5), (5, 4), (6, 4), (7, 3), (3, 5), (3, 3), (2, 3), (1, 5), (1, 3), (2, 5), (9, 5), (4, 3)], 10, 9, 17, true, "You reached the AI\x27s goal! You win!", false⟩

theorem pqPush_perm (e : Nat × SNode) (q : List (Nat × SNode)) :
    (pqPush e q).Perm (e :: q) := by
  induction q with
  | nil => simp [pqPush]
  | cons x t ih =>
    by_cases h : e.1 < x.1
    · simp [pqPush, h]
    · simp only [pqPush, if_neg h]
      exact (ih.cons x).trans (List.Perm.swap e x t)

theorem mem_pqPush {a e : Nat × SNode} {q : List (Nat × SNode)} :
    a ∈ pqPush e q ↔ a = e ∨ a ∈ q := by
  rw [(pqPush_perm e q).mem_iff, List.mem_cons]

theorem pqPush_sorted {e : Nat × SNode} {q : List (Nat × SNode)}
    (h : PQSorted q) : PQSorted (pqPush e q) := by
  induction q with
  | nil => simp [pqPush, PQSorted]
  | cons x t ih =>
    rcases List.pairwise_cons.1 h with ⟨hx, ht⟩
    by_cases hlt : e.1 < x.1
    · simp only [pqPush, if_pos hlt]
      refine List.pairwise_cons.2 ⟨?_, h⟩
      intro b hb
      rcases List.mem_cons.1 hb with rfl | hb
      · exact Nat.le_of_lt hlt
      · exact Nat.le_trans (Nat.le_of_lt hlt) (hx b hb)
    · simp only [pqPush, if_neg hlt]
      refine List.pairwise_cons.2 ⟨?_, ih ht⟩
      intro b hb
      rcases mem_pqPush.1 hb with rfl | hb
      · exact Nat.le_of_not_lt hlt
      · exact hx b hb

theorem pqPushAll_perm (es q : List (Nat × SNode)) :
    (pqPushAll es q).Perm (es ++ q) := by
  induction es generalizing q with
  | nil => simp [pqPushAll]
  | cons e es ih =>
    have h1 : (pqPushAll es (pqPush e q)).Perm (es ++ pqPush e q) :=
      ih (pqPush e q)
    have h2 : (es ++ pqPush e q).Perm (es ++ (e :: q)) :=
      List.Perm.append_left es (pqPush_perm e q)
    have h3 : (es ++ (e :: q)).Perm ((e :: es) ++ q) := by
      simp only [List.cons_append]
      exact List.perm_middle
    exact (h1.trans h2).trans h3

theorem mem_pqPushAll {a : Nat × SNode} {es q : List (Nat × SNode)} :
    a ∈ pqPushAll es q ↔ a ∈ es ∨ a ∈ q := by
  rw [(pqPushAll_perm es q).mem_iff, List.mem_append]

theorem pqPushAll_sorted {es q : List (Nat × SNode)}
    (h : PQSorted q) : PQSorted (pqPushAll es q) := by
  induction es generalizing q with
  | nil => exact h
  | cons e es ih => exact ih (pqPush_sorted h)

/-! ### Adjacency, heuristic consistency, walks -/
theorem adjacent_manhattan {a b : Cell} (h : adjacent a b) :
    (a.1 - b.1).natAbs + (a.2 - b.2).natAbs = 1 := by
  rcases h with ⟨d, hd, rfl⟩
  fin_cases hd <;> dsimp only <;> omega

theorem adjacent_ne {a b : Cell} (h : adjacent a b) : a ≠ b := by
  intro he
  have := adjacent_manhattan h
  rw [← he] at this
  simp at this

/-- Int triangle inequality in `natAbs` form. -/
theorem natAbs_sub_le_tri (x y z : Int) :
    (x - z).natAbs ≤ (x - y).natAbs + (y - z).natAbs := by
  have hx : x - z = (x - y) + (y - z) := by ring
  rw [hx]
  exact Int.natAbs_add_le _ _

/-- Manhattan consistency: over one unit step the heuristic changes by at
most one. -/
theorem heuristic_consistent {a b : Cell} (gp : Cell) (h : adjacent a b) :
    heuristic a gp ≤ 1 + heuristic b gp := by
  have h1 : (a.1 - gp.1).natAbs ≤ (a.1 - b.1).natAbs + (b.1 - gp.1).natAbs :=
    natAbs_sub_le_tri _ _ _
  have h2 : (a.2 - gp.2).natAbs ≤ (a.2 - b.2).natAbs + (b.2 - gp.2).natAbs :=
    natAbs_sub_le_tri _ _ _
  have hm := adjacent_manhattan h
  unfold heuristic
  omega

theorem heuristic_self (gp : Cell) : heuristic gp gp = 0 := by
  simp [heuristic]

theorem lastOf_nil (s : Cell) : lastOf s [] = s := rfl

theorem lastOf_cons (s y : Cell) (t : List Cell) :
    lastOf s (y :: t) = lastOf y t := by
  simp [lastOf, List.getLast_cons]

theorem walkTo_refl (goalPos : Cell) (walls : List Cell) (s : Cell) :
    WalkTo goalPos walls s s 0 :=
  ⟨[], ⟨List.Chain.nil, by simp⟩, rfl, rfl⟩

/-- Along a chain of unit steps the heuristic drops by at most one per
step. -/
theorem chain_heuristic_le (gp : Cell) :
    ∀ (l : List Cell) (s : Cell), List.Chain adjacent s l →
      heuristic s gp ≤ l.length + heuristic (lastOf s l) gp := by
  intro l
  induction l with
  | nil => intro s _; simp [lastOf_nil]
  | cons y t ih =>
    intro s hch
    rcases List.chain_cons.1 hch with ⟨hadj, ht⟩
    have h1 := heuristic_consistent gp hadj
    have h2 := ih y ht
    rw [lastOf_cons]
    calc heuristic s gp ≤ 1 + heuristic y gp := h1
    _ ≤ 1 + (t.length + heuristic (lastOf y t) gp) := by omega
    _ = (y :: t).length + heuristic (lastOf y t) gp := by
        simp [List.length_cons]; omega

/-- A valid path in the claims' sense is a step-valid walk ending on the
goal. -/
theorem validPath_walk {startPos goalPos : Cell} {walls : List Cell}
    {l : List Cell} (h : ValidPath startPos goalPos walls l) :
    WalkOk goalPos walls startPos l ∧ lastOf startPos l = goalPos := by
  obtain ⟨hne, hlast, hch, hmem⟩ := h
  have hl : l.getLast hne = goalPos := by
    rw [List.getLast?_eq_getLast l hne] at hlast
    exact Option.some_injective _ hlast
  have hlast2 : lastOf startPos l = goalPos := by
    unfold lastOf
    rw [List.getLast_cons hne]
    exact hl
  refine ⟨⟨hch, ?_⟩, hlast2⟩
  intro c hc
  rw [← List.dropLast_append_getLast hne] at hc
  rcases List.mem_append.1 hc with h1 | h2
  · exact Or.inr (hmem c h1)
  · left
    have hce : c = l.getLast hne := by simpa using h2
    rw [hce, hl]

/-- Every step-valid walk from a visited cell to an unvisited one crosses the
frontier: it contains a visited cell `c` at walk distance `i`, followed by an
unvisited steppable cell `y`, with the remaining `j` steps bounding the
heuristic gap to the walk's last cell. -/
theorem chain_frontier (goalPos : Cell) (walls visited : List Cell) :
    ∀ (l : List Cell) (s : Cell), List.Chain adjacent s l →
      (∀ c ∈ l, okStep goalPos walls c) →
      s ∈ visited → lastOf s l ∉ visited →
      ∃ c y i j, c ∈ visited ∧ y ∉ visited ∧ adjacent c y ∧
        okStep goalPos walls y ∧ WalkTo goalPos walls s c i ∧
        heuristic y goalPos ≤ j + heuristic (lastOf s l) goalPos ∧
        i + 1 + j ≤ l.length := by
  intro l
  induction l with
  | nil =>
    intro s _ _ hs hlast
    exact absurd hs hlast
  | cons z t ih =>
    intro s hch hok hs hlast
    rcases List.chain_cons.1 hch with ⟨hadj, ht⟩
    rw [lastOf_cons] at hlast
    by_cases hz : z ∈ visited
    · obtain ⟨c, y, i, j, h1, h2, h3, h4, h5, h6, h7⟩ :=
        ih z ht (fun c hc => hok c (List.mem_cons_of_mem z hc)) hz hlast
      refine ⟨c, y, i + 1, j, h1, h2, h3, h4, ?_, ?_, ?_⟩
      · obtain ⟨w, ⟨hwch, hwok⟩, hwlast, hwlen⟩ := h5
        refine ⟨z :: w, ⟨List.chain_cons.2 ⟨hadj, hwch⟩, ?_⟩, ?_, by simp [hwlen]⟩
        · intro c hc
          rcases List.mem_cons.1 hc with rfl | hc
          · exact hok _ (List.mem_cons_self _ _)
          · exact hwok c hc
        · rw [lastOf_cons]; exact hwlast
      · rw [lastOf_cons]; exact h6
      · simp only [List.length_cons]; omega
    · refine ⟨s, z, 0, t.length, hs, hz, hadj,
        hok z (List.mem_cons_self z t), walkTo_refl _ _ _, ?_,
        by simp only [List.length_cons]; omega⟩
      rw [lastOf_cons]
      exact chain_heuristic_le goalPos t z ht

theorem lastOf_concat (s x : Cell) (l : List Cell) :
    lastOf s (l ++ [x]) = x := by
  have h1 : (s :: (l ++ [x])).getLast? = some x := by
    rw [show s :: (l ++ [x]) = (s :: l) ++ [x] by simp, List.getLast?_concat]
  have h2 : some (lastOf s (l ++ [x])) = (s :: (l ++ [x])).getLast? :=
    (List.getLast?_eq_getLast _ _).symm
  rw [h1] at h2
  exact Option.some_injective _ h2

/-! ### The A* loop invariant -/

theorem neighborKeep_iff {goalPos : Cell} {walls : List Cell} {n : Cell} :
    neighborKeep goalPos walls n = true ↔ okStep goalPos walls n := by
  unfold neighborKeep okStep
  by_cases h1 : n = goalPos
  · simp [h1]
  · by_cases h2 : inInterior n
    · by_cases h3 : n ∈ walls <;> simp [h1, h2, h3]
    · simp [h1, h2]

/-- Membership in the expansion of a node. -/
theorem mem_expandEntries {cur : SNode} {goalPos : Cell}
    {walls visited : List Cell} {e : Nat × SNode} :
    e ∈ expandEntries cur goalPos walls visited ↔
      ∃ d ∈ DIRS,
        okStep goalPos walls (cur.pos.1 + d.1, cur.pos.2 + d.2) ∧
        (cur.pos.1 + d.1, cur.pos.2 + d.2) ∉ visited ∧
        e = (cur.g + 1 + heuristic (cur.pos.1 + d.1, cur.pos.2 + d.2) goalPos,
          ⟨(cur.pos.1 + d.1, cur.pos.2 + d.2), cur.g + 1,
            (cur.pos.1 + d.1, cur.pos.2 + d.2) :: cur.rpath⟩) := by
  unfold expandEntries
  rw [List.mem_filterMap]
  constructor
  · rintro ⟨d, hd, he⟩
    by_cases hcond : neighborKeep goalPos walls (cur.pos.1 + d.1, cur.pos.2 + d.2) ∧
        (cur.pos.1 + d.1, cur.pos.2 + d.2) ∉ visited
    · rw [if_pos hcond] at he
      exact ⟨d, hd, neighborKeep_iff.1 hcond.1, hcond.2,
        (Option.some_injective _ he).symm⟩
    · rw [if_neg hcond] at he
      exact absurd he (by simp)
  · rintro ⟨d, hd, hok, hnv, rfl⟩
    refine ⟨d, hd, ?_⟩
    rw [if_pos ⟨neighborKeep_iff.2 hok, hnv⟩]

theorem chain_concat {n : Cell} :
    ∀ {l : List Cell}, ∀ {s : Cell}, List.Chain adjacent s l →
      adjacent (lastOf s l) n → List.Chain adjacent s (l ++ [n]) := by
  intro l
  induction l with
  | nil =>
    intro s _ hadj
    exact List.chain_cons.2 ⟨hadj, List.Chain.nil⟩
  | cons z t ih =>
    intro s hch hadj
    rcases List.chain_cons.1 hch with ⟨h1, h2⟩
    rw [lastOf_cons] at hadj
    exact List.chain_cons.2 ⟨h1, ih h2 hadj⟩

/-- The chain carried by a well-formed entry ends at the entry's cell. -/
theorem entryWF_last {startPos goalPos : Cell} {walls visited : List Cell}
    {e : Nat × SNode} (h : EntryWF startPos goalPos walls visited e) :
    lastOf startPos e.2.rpath.reverse = e.2.pos := by
  rcases hrp : e.2.rpath with _ | ⟨p, t⟩
  · exact absurd hrp h.rne
  · have hp : p = e.2.pos := by
      have := h.rhead
      rw [hrp] at this
      simpa using this
    rw [List.reverse_cons, lastOf_concat, hp]

/-- One non-goal iteration of the loop preserves the invariant. -/
theorem step_preserves {startPos goalPos : Cell} {walls : List Cell}
    {f : Nat} {cur : SNode} {rest : List (Nat × SNode)} {visited : List Cell}
    (h : AInv startPos goalPos walls ((f, cur) :: rest) visited)
    (hne : cur.pos ≠ goalPos) :
    AInv startPos goalPos walls
      (pqPushAll (expandEntries cur goalPos walls (cur.pos :: visited)) rest)
      (cur.pos :: visited) := by
  have hcur : EntryWF startPos goalPos walls visited (f, cur) :=
    h.entries _ (List.mem_cons_self _ _)
  have hrest : ∀ e ∈ rest, EntryWF startPos goalPos walls visited e :=
    fun e he => h.entries e (List.mem_cons_of_mem _ he)
  -- entry well-formedness transfers to a larger visited set
  have upgrade : ∀ e, EntryWF startPos goalPos walls visited e →
      EntryWF startPos goalPos walls (cur.pos :: visited) e := by
    intro e he
    exact ⟨he.fval, he.glen, he.rne, he.rhead, he.rchain, he.rok,
      fun c hc => ⟨List.mem_cons_of_mem _ (he.rtail c hc).1, (he.rtail c hc).2⟩⟩
  have hnewWF : ∀ e ∈ expandEntries cur goalPos walls (cur.pos :: visited),
      EntryWF startPos goalPos walls (cur.pos :: visited) e := by
    intro e he
    obtain ⟨d, hd, hok, hnv, rfl⟩ := mem_expandEntries.1 he
    set n : Cell := (cur.pos.1 + d.1, cur.pos.2 + d.2) with hn
    have hadj : adjacent cur.pos n := ⟨d, hd, rfl⟩
    refine ⟨rfl, ?_, by simp, rfl, ?_, ?_, ?_⟩
    · simp only [List.length_cons]
      rw [hcur.glen]
    · -- the extended chain
      have hch : List.Chain adjacent startPos (cur.rpath.reverse ++ [n]) :=
        chain_concat hcur.rchain (by rw [entryWF_last hcur]; exact hadj)
      simpa using hch
    · intro c hc
      rcases List.mem_cons.1 hc with rfl | hc
      · refine ⟨hok, ?_⟩
        intro hcs
        exact hnv (hcs ▸ List.mem_cons_of_mem _ h.start_mem)
      · exact hcur.rok c hc
    · intro c hc
      simp only [List.tail_cons] at hc
      rcases hrp : cur.rpath with _ | ⟨p, t⟩
      · rw [hrp] at hc; exact absurd hc (List.not_mem_nil c)
      · have hp : p = cur.pos := by
          have := hcur.rhead
          rw [hrp] at this
          simpa using this
        rw [hrp] at hc
        rcases List.mem_cons.1 hc with rfl | hc
        · exact ⟨hp ▸ List.mem_cons_self _ _, hp ▸ hne⟩
        · have := hcur.rtail c (by rw [hrp]; exact hc)
          exact ⟨List.mem_cons_of_mem _ this.1, this.2⟩
  refine ⟨?_, ?_, ?_, ?_, ?_⟩
  · exact pqPushAll_sorted (List.pairwise_cons.1 h.sorted).2
  · intro e he
    rcases mem_pqPushAll.1 he with he | he
    · exact hnewWF e he
    · exact upgrade e (hrest e he)
  · exact List.mem_cons_of_mem _ h.start_mem
  · intro hg
    rcases List.mem_cons.1 hg with hg | hg
    · exact hne hg.symm
    · exact h.goal_not_mem hg
  · -- the ghost table
    obtain ⟨gv, hC2, hC3⟩ := h.ghost
    have hf_le : ∀ e ∈ (f, cur) :: rest, f ≤ e.1 := by
      intro e he
      rcases List.mem_cons.1 he with rfl | he
      · exact Nat.le_refl _
      · exact (List.pairwise_cons.1 h.sorted).1 e he
    by_cases hv : cur.pos ∈ visited
    · -- stale pop: keep the table
      refine ⟨gv, ?_, ?_⟩
      · intro c hc d hd hok
        have hcv : c ∈ visited := by
          rcases List.mem_cons.1 hc with rfl | hc
          · exact hv
          · exact hc
        rcases hC2 c hcv d hd hok with hin | ⟨e, he, hpos, hg⟩
        · exact Or.inl (List.mem_cons_of_mem _ hin)
        · rcases List.mem_cons.1 he with rfl | he
          · exact Or.inl (hpos ▸ List.mem_cons_self _ _)
          · exact Or.inr ⟨e, mem_pqPushAll.2 (Or.inr he), hpos, hg⟩
      · intro c hc n hw
        have hcv : c ∈ visited := by
          rcases List.mem_cons.1 hc with rfl | hc
          · exact hv
          · exact hc
        exact hC3 c hcv n hw
    · -- fresh pop: the popped cost is optimal
      have hopt : ∀ m, WalkTo goalPos walls startPos cur.pos m → cur.g ≤ m := by
        intro m ⟨l, ⟨hch, hok⟩, hlast, hlen⟩
        obtain ⟨c, y, i, j, hc, hy, hadj, hoky, hwi, hheu, hij⟩ :=
          chain_frontier goalPos walls visited l startPos hch hok
            h.start_mem (hlast ▸ hv)
        obtain ⟨d, hd, hyd⟩ := hadj
        rcases hC2 c hc d hd (hyd ▸ hoky) with hin | ⟨e, he, hpos, hg⟩
        · exact absurd (hyd ▸ hin) hy
        · have hgvc : gv c ≤ i := hC3 c hc i hwi
          have hewf := h.entries e he
          have he1 : e.1 = e.2.g + heuristic y goalPos := by
            rw [hewf.fval, hpos, ← hyd]
          have hfe : f ≤ e.1 := hf_le e he
          have hfv : f = cur.g + heuristic cur.pos goalPos := hcur.fval
          have hheu2 : heuristic y goalPos ≤ j + heuristic cur.pos goalPos := by
            rw [← hlast]; exact hheu
          have : cur.g + heuristic cur.pos goalPos ≤
              (gv c + 1) + (j + heuristic cur.pos goalPos) := by
            calc cur.g + heuristic cur.pos goalPos = f := hfv.symm
            _ ≤ e.1 := hfe
            _ = e.2.g + heuristic y goalPos := he1
            _ ≤ (gv c + 1) + (j + heuristic cur.pos goalPos) :=
                Nat.add_le_add hg hheu2
          rw [← hlen]
          omega
      refine ⟨Function.update gv cur.pos cur.g, ?_, ?_⟩
      · intro c hc d hd hok
        set n : Cell := (c.1 + d.1, c.2 + d.2) with hn
        rcases List.mem_cons.1 hc with rfl | hcv
        · -- neighbours of the newly visited cell
          by_cases hnv : n ∈ cur.pos :: visited
          · exact Or.inl hnv
          · right
            refine ⟨(cur.g + 1 + heuristic n goalPos,
              ⟨n, cur.g + 1, n :: cur.rpath⟩), ?_, rfl, ?_⟩
            · exact mem_pqPushAll.2 (Or.inl
                (mem_expandEntries.2 ⟨d, hd, hok, hnv, rfl⟩))
            · rw [Function.update_same]
        · have hcne : c ≠ cur.pos := fun hce => hv (hce ▸ hcv)
          rw [Function.update_noteq hcne]
          rcases hC2 c hcv d hd hok with hin | ⟨e, he, hpos, hg⟩
          · exact Or.inl (List.mem_cons_of_mem _ hin)
          · rcases List.mem_cons.1 he with rfl | he
            · exact Or.inl (hpos ▸ List.mem_cons_self _ _)
            · exact Or.inr ⟨e, mem_pqPushAll.2 (Or.inr he), hpos, hg⟩
      · intro c hc m hw
        rcases List.mem_cons.1 hc with rfl | hcv
        · rw [Function.update_same]
          exact hopt m hw
        · have hcne : c ≠ cur.pos := fun hce => hv (hce ▸ hcv)
          rw [Function.update_noteq hcne]
          exact hC3 c hcv m hw

/-- If the walls admit a valid path, some frontier entry remains (otherwise
the frontier argument below is contradictory).  Main loop correctness: from
any invariant state, a `some` result is a valid optimal path when nonempty,
and certifies unreachability when empty. -/
theorem aStarLoop_correct {startPos goalPos : Cell} {walls : List Cell} :
    ∀ (fuel : Nat) (op : List (Nat × SNode)) (visited : List Cell),
      AInv startPos goalPos walls op visited →
      ∀ res, aStarLoop goalPos walls fuel op visited = some res →
        (res ≠ [] → ValidPath startPos goalPos walls res ∧
          startPos ∉ res ∧
          ∀ l, ValidPath startPos goalPos walls l → res.length ≤ l.length) ∧
        (res = [] → ∀ l, ¬ ValidPath startPos goalPos walls l) := by
  intro fuel
  induction fuel with
  | zero =>
    intro op visited _ res hres
    exact absurd hres (by simp [aStarLoop])
  | succ fuel ih =>
    intro op visited hinv res hres
    -- the frontier cannot be empty while a valid path exists
    have frontier_nonempty : ∀ l, ValidPath startPos goalPos walls l →
        op ≠ [] := by
      intro l hl hop
      obtain ⟨⟨hch, hok⟩, hlast⟩ := validPath_walk hl
      obtain ⟨c, y, i, j, hc, hy, hadj, hoky, _, _, _⟩ :=
        chain_frontier goalPos walls visited l startPos hch hok
          hinv.start_mem (hlast ▸ hinv.goal_not_mem)
      obtain ⟨d, hd, hyd⟩ := hadj
      obtain ⟨gv, hC2, _⟩ := hinv.ghost
      rcases hC2 c hc d hd (hyd ▸ hoky) with hin | ⟨e, he, _, _⟩
      · exact hy (hyd ▸ hin)
      · rw [hop] at he
        exact absurd he (List.not_mem_nil e)
    rcases op with _ | ⟨⟨f, cur⟩, rest⟩
    · have hres' : res = [] := by
        have : aStarLoop goalPos walls (fuel + 1) [] visited = some [] := by
          simp [aStarLoop]
        rw [this] at hres
        exact (Option.some_injective _ hres).symm
      subst hres'
      exact ⟨fun hne => absurd rfl hne,
        fun _ l hl => frontier_nonempty l hl rfl⟩
    · by_cases hpos : cur.pos = goalPos
      · -- the goal is popped: reconstruct and certify optimality
        have hres' : cur.rpath.reverse = res := by
          have : aStarLoop goalPos walls (fuel + 1) ((f, cur) :: rest) visited
              = some cur.rpath.reverse := by
            simp [aStarLoop, hpos]
          rw [this] at hres
          exact Option.some_injective _ hres
        have hwf : EntryWF startPos goalPos walls visited (f, cur) :=
          hinv.entries _ (List.mem_cons_self _ _)
        rcases hrp : cur.rpath with _ | ⟨p, t⟩
        · exact absurd hrp hwf.rne
        have hp : p = cur.pos := by
          have := hwf.rhead
          rw [hrp] at this
          simpa using this
        subst hres'
        constructor
        · intro _
          refine ⟨⟨?_, ?_, ?_, ?_⟩, ?_, ?_⟩
          · rw [hrp]; simp
          · rw [List.getLast?_reverse, hwf.rhead, hpos]
          · exact hwf.rchain
          · intro c hc
            rw [hrp, List.reverse_cons, List.dropLast_concat] at hc
            have hct : c ∈ cur.rpath.tail := by
              rw [hrp]; simpa using hc
            have h1 := hwf.rtail c hct
            have h2 := hwf.rok c (List.mem_of_mem_tail hct)
            rcases h2.1 with hcg | hcw
            · exact absurd hcg h1.2
            · exact hcw
          · intro hs
            have hs' : startPos ∈ cur.rpath := List.mem_reverse.1 hs
            exact (hwf.rok _ hs').2 rfl
          · intro l hl
            obtain ⟨⟨hch, hok⟩, hlast⟩ := validPath_walk hl
            obtain ⟨c, y, i, j, hc, hy, hadj, hoky, hwi, hheu, hij⟩ :=
              chain_frontier goalPos walls visited l startPos hch hok
                hinv.start_mem (hlast ▸ hinv.goal_not_mem)
            obtain ⟨d, hd, hyd⟩ := hadj
            obtain ⟨gv, hC2, hC3⟩ := hinv.ghost
            rcases hC2 c hc d hd (hyd ▸ hoky) with hin | ⟨e, he, hpe, hge⟩
            · exact absurd (hyd ▸ hin) hy
            · have hgvc : gv c ≤ i := hC3 c hc i hwi
              have hewf := hinv.entries e he
              have hfe : f ≤ e.1 := by
                rcases List.mem_cons.1 he with rfl | he'
                · exact Nat.le_refl _
                · exact (List.pairwise_cons.1 hinv.sorted).1 e he'
              have hygoal : heuristic y goalPos ≤ j := by
                have := hheu
                rw [hlast, heuristic_self] at this
                omega
              have hglen : cur.g = cur.rpath.length := hwf.glen
              have hlen : cur.rpath.reverse.length = cur.g := by
                rw [List.length_reverse, hglen]
              have hfv : f = cur.g + heuristic cur.pos goalPos := hwf.fval
              have hfval : f = cur.g := by
                rw [hfv, hpos, heuristic_self]
                omega
              have : cur.g ≤ l.length := by
                have he1 : e.1 = e.2.g + heuristic y goalPos := by
                  rw [hewf.fval, hpe, ← hyd]
                omega
              omega
        · intro habs
          have hnil : cur.rpath = [] := List.reverse_eq_nil_iff.1 habs
          rw [hrp] at hnil
          exact absurd hnil (List.cons_ne_nil _ _)
      · -- ordinary expansion step
        have hres' : aStarLoop goalPos walls fuel
            (pqPushAll (expandEntries cur goalPos walls (cur.pos :: visited))
              rest) (cur.pos :: visited) = some res := by
          have : aStarLoop goalPos walls (fuel + 1) ((f, cur) :: rest) visited
              = aStarLoop goalPos walls fuel
                (pqPushAll (expandEntries cur goalPos walls
                  (cur.pos :: visited)) rest) (cur.pos :: visited) := by
            simp [aStarLoop, hpos]
          rw [this] at hres
          exact hres
        exact ih _ _ (step_preserves hinv hpos) res hres'

/-! ### Termination: the fuel is never exhausted

Every pushed entry carries a duplicate-free chain of cells drawn from the 81
interior cells plus the start and goal, and no two pushes over a whole run
carry the same chain; encoding chains as base-84 numbers bounds the total
number of pushes, hence of iterations, by `NBOUND = 84 ^ 83`. -/

theorem mem_interiorCells {c : Cell} (h : inInterior c) : c ∈ interiorCells := by
  obtain ⟨h1, h2, h3, h4⟩ := h
  rcases c with ⟨r, col⟩
  simp only [TOTAL_ROWS, BOARD_ROWS, GOAL_ROWS, BOARD_COLS] at h2 h4
  refine List.mem_flatMap.2 ⟨(r - 1).toNat, ?_, ?_⟩
  · simp only [List.mem_range]
    omega
  · refine List.mem_map.2 ⟨col.toNat, ?_, ?_⟩
    · simp only [List.mem_range]
      omega
    · simp only [Prod.mk.injEq, Int.ofNat_eq_coe]
      constructor <;> omega

theorem interiorCells_length : interiorCells.length = 81 := by decide

theorem SCells_length (startPos goalPos : Cell) :
    (SCells startPos goalPos).length = 83 := by
  simp [SCells, interiorCells_length]

theorem okStep_mem_SCells {startPos goalPos : Cell} {walls : List Cell}
    {c : Cell} (h : okStep goalPos walls c) : c ∈ SCells startPos goalPos := by
  rcases h with rfl | ⟨hi, _⟩
  · exact List.mem_cons_of_mem _ (List.mem_cons_self _ _)
  · exact List.mem_cons_of_mem _
      (List.mem_cons_of_mem _ (mem_interiorCells hi))

theorem cellIdx_lt {c : Cell} : ∀ {S : List Cell}, c ∈ S →
    cellIdx S c < S.length := by
  intro S
  induction S with
  | nil => intro h; exact absurd h (List.not_mem_nil c)
  | cons x t ih =>
    intro h
    by_cases hcx : c = x
    · simp [cellIdx, hcx]
    · rcases List.mem_cons.1 h with h | h
      · exact absurd h hcx
      · simp only [cellIdx, if_neg hcx, List.length_cons]
        exact Nat.succ_lt_succ (ih h)

theorem cellIdx_inj {c c' : Cell} : ∀ {S : List Cell}, c ∈ S → c' ∈ S →
    cellIdx S c = cellIdx S c' → c = c' := by
  intro S
  induction S with
  | nil => intro h; exact absurd h (List.not_mem_nil c)
  | cons x t ih =>
    intro h h' he
    by_cases hcx : c = x <;> by_cases hcx' : c' = x
    · rw [hcx, hcx']
    · rw [cellIdx, cellIdx, if_pos hcx, if_neg hcx'] at he
      exact absurd he.symm (Nat.succ_ne_zero _)
    · rw [cellIdx, cellIdx, if_neg hcx, if_pos hcx'] at he
      exact absurd he (Nat.succ_ne_zero _)
    · rcases List.mem_cons.1 h with hx | hx
      · exact absurd hx hcx
      rcases List.mem_cons.1 h' with hx' | hx'
      · exact absurd hx' hcx'
      rw [cellIdx, cellIdx, if_neg hcx, if_neg hcx'] at he
      exact ih hx hx' (Nat.succ_injective he)

theorem keyCode_inj (S : List Cell) :
    ∀ (k₁ k₂ : List Cell), (∀ c ∈ k₁, c ∈ S) → (∀ c ∈ k₂, c ∈ S) →
      keyCode S k₁ = keyCode S k₂ → k₁ = k₂ := by
  intro k₁
  induction k₁ with
  | nil =>
    intro k₂ _ hm2 he
    rcases k₂ with _ | ⟨c, t⟩
    · rfl
    · exact absurd he.symm (by simp [keyCode])
  | cons c t ih =>
    intro k₂ hm1 hm2 he
    rcases k₂ with _ | ⟨c', t'⟩
    · exact absurd he (by simp [keyCode])
    · have hc : c ∈ S := hm1 c (List.mem_cons_self _ _)
      have hc' : c' ∈ S := hm2 c' (List.mem_cons_self _ _)
      have hd : cellIdx S c < S.length := cellIdx_lt hc
      have hd' : cellIdx S c' < S.length := cellIdx_lt hc'
      simp only [keyCode] at he
      have hb : 0 < S.length + 1 := Nat.succ_pos _
      have hmod := congrArg (fun x => x % (S.length + 1)) he
      simp only [Nat.add_mul_mod_self_left] at hmod
      rw [Nat.mod_eq_of_lt (by omega : cellIdx S c + 1 < S.length + 1),
        Nat.mod_eq_of_lt (by omega : cellIdx S c' + 1 < S.length + 1)] at hmod
      have hdig : cellIdx S c = cellIdx S c' := by omega
      have hkk : keyCode S t = keyCode S t' := by
        have hmul : (S.length + 1) * keyCode S t =
            (S.length + 1) * keyCode S t' := by omega
        exact Nat.eq_of_mul_eq_mul_left hb hmul
      have hdeq : cellIdx S c = cellIdx S c' ∧ keyCode S t = keyCode S t' :=
        ⟨hdig, hkk⟩
      have hcc : c = c' := cellIdx_inj hc hc' hdeq.1
      have htt : t = t' :=
        ih t' (fun x hx => hm1 x (List.mem_cons_of_mem _ hx))
          (fun x hx => hm2 x (List.mem_cons_of_mem _ hx)) hdeq.2
      rw [hcc, htt]

theorem keyCode_lt (S : List Cell) :
    ∀ (k : List Cell), (∀ c ∈ k, c ∈ S) →
      keyCode S k < (S.length + 1) ^ k.length := by
  intro k
  induction k with
  | nil => intro _; simp [keyCode]
  | cons c t ih =>
    intro hm
    have hd : cellIdx S c < S.length :=
      cellIdx_lt (hm c (List.mem_cons_self _ _))
    have ht : keyCode S t < (S.length + 1) ^ t.length :=
      ih fun x hx => hm x (List.mem_cons_of_mem _ hx)
    have h2 : (S.length + 1) * keyCode S t + (S.length + 1) ≤
        (S.length + 1) * (S.length + 1) ^ t.length := by
      have h3 : keyCode S t + 1 ≤ (S.length + 1) ^ t.length := ht
      calc (S.length + 1) * keyCode S t + (S.length + 1)
          = (S.length + 1) * (keyCode S t + 1) := by ring
      _ ≤ (S.length + 1) * (S.length + 1) ^ t.length :=
          Nat.mul_le_mul_left _ h3
    have hcm : (S.length + 1) ^ t.length * (S.length + 1) =
        (S.length + 1) * (S.length + 1) ^ t.length := mul_comm _ _
    simp only [keyCode, List.length_cons, pow_succ, hcm]
    omega

theorem key_length_le (S : List Cell) (k : List Cell) (hk : k.Nodup)
    (hm : ∀ c ∈ k, c ∈ S) : k.length ≤ S.length := by
  have h1 : k.toFinset.card = k.length := List.toFinset_card_of_nodup hk
  have h2 : k.toFinset ⊆ S.toFinset := by
    intro x hx
    exact List.mem_toFinset.2 (hm x (List.mem_toFinset.1 hx))
  have h3 : S.toFinset.card ≤ S.length := S.toFinset_card_le
  have := Finset.card_le_card h2
  omega

/-- Any duplicate-free list of duplicate-free chains over `S` has at most
`(|S| + 1) ^ |S|` elements. -/
theorem chainlist_length_le (S : List Cell) (ks : List (List Cell))
    (hks : ks.Nodup) (hall : ∀ k ∈ ks, k.Nodup ∧ ∀ c ∈ k, c ∈ S) :
    ks.length ≤ (S.length + 1) ^ S.length := by
  have hmap : (ks.map (keyCode S)).Nodup := by
    refine List.Nodup.map_on ?_ hks
    intro x hx y hy hxy
    exact keyCode_inj S x y (hall x hx).2 (hall y hy).2 hxy
  have hlt : ∀ n ∈ ks.map (keyCode S), n < (S.length + 1) ^ S.length := by
    intro n hn
    obtain ⟨k, hk, rfl⟩ := List.mem_map.1 hn
    have h1 : keyCode S k < (S.length + 1) ^ k.length :=
      keyCode_lt S k (hall k hk).2
    have h2 : k.length ≤ S.length := key_length_le S k (hall k hk).1 (hall k hk).2
    exact Nat.lt_of_lt_of_le h1
      (Nat.pow_le_pow_right (Nat.succ_le_succ (Nat.zero_le _)) h2)
  have hsub : (ks.map (keyCode S)).toFinset ⊆
      Finset.range ((S.length + 1) ^ S.length) := by
    intro n hn
    exact Finset.mem_range.2 (hlt n (List.mem_toFinset.1 hn))
  have hcard := Finset.card_le_card hsub
  rw [List.toFinset_card_of_nodup hmap, Finset.card_range,
    List.length_map] at hcard
  exact hcard

theorem keyOf_expand {startPos : Cell} {cur : SNode} {goalPos : Cell}
    {walls visited : List Cell} {e : Nat × SNode}
    (he : e ∈ expandEntries cur goalPos walls visited) :
    keyOf startPos e.2 = keyOf startPos cur ++ [e.2.pos] ∧
      e.2.pos ∉ visited ∧ okStep goalPos walls e.2.pos := by
  obtain ⟨d, hd, hok, hnv, rfl⟩ := mem_expandEntries.1 he
  refine ⟨?_, hnv, hok⟩
  simp [keyOf]

theorem expandEntries_nodup (cur : SNode) (goalPos : Cell)
    (walls visited : List Cell) :
    (expandEntries cur goalPos walls visited).Nodup := by
  unfold expandEntries
  refine List.Nodup.filterMap ?_ (by decide)
  intro d d' e he he'
  have hpos : ∀ dd : Cell, ∀ ee : Nat × SNode,
      ee ∈ (if neighborKeep goalPos walls (cur.pos.1 + dd.1, cur.pos.2 + dd.2) ∧
          (cur.pos.1 + dd.1, cur.pos.2 + dd.2) ∉ visited then
        some (cur.g + 1 +
            heuristic (cur.pos.1 + dd.1, cur.pos.2 + dd.2) goalPos,
          ⟨(cur.pos.1 + dd.1, cur.pos.2 + dd.2), cur.g + 1,
            (cur.pos.1 + dd.1, cur.pos.2 + dd.2) :: cur.rpath⟩)
      else none) →
      ee.2.pos = (cur.pos.1 + dd.1, cur.pos.2 + dd.2) := by
    intro dd ee hee
    by_cases hc : neighborKeep goalPos walls (cur.pos.1 + dd.1, cur.pos.2 + dd.2) ∧
        (cur.pos.1 + dd.1, cur.pos.2 + dd.2) ∉ visited
    · rw [if_pos hc] at hee
      rw [← Option.some_injective _ hee]
    · rw [if_neg hc] at hee
      exact absurd hee (by simp)
  have h1 := hpos d e he
  have h2 := hpos d' e he'
  have h3 : (cur.pos.1 + d.1, cur.pos.2 + d.2) =
      ((cur.pos.1 + d'.1, cur.pos.2 + d'.2) : Cell) := by
    rw [← h1, h2]
  rcases d with ⟨d1, d2⟩
  rcases d' with ⟨e1, e2⟩
  simp only [Prod.mk.injEq] at h3 ⊢
  omega

theorem expand_keys_nodup (startPos : Cell) (cur : SNode) (goalPos : Cell)
    (walls visited : List Cell) :
    ((expandEntries cur goalPos walls visited).map
      (fun e => keyOf startPos e.2)).Nodup := by
  refine List.Nodup.map_on ?_ (expandEntries_nodup cur goalPos walls visited)
  intro x hx y hy hxy
  have hkx := (@keyOf_expand startPos _ _ _ _ _ hx).1
  have hky := (@keyOf_expand startPos _ _ _ _ _ hy).1
  rw [hkx, hky] at hxy
  have hpp : x.2.pos = y.2.pos := by
    have := List.append_cancel_left hxy
    simpa using this
  obtain ⟨d, hd, hok, hnv, hex⟩ := mem_expandEntries.1 hx
  obtain ⟨d', hd', hok', hnv', hey⟩ := mem_expandEntries.1 hy
  have hpx : x.2.pos = (cur.pos.1 + d.1, cur.pos.2 + d.2) := by rw [hex]
  have hpy : y.2.pos = (cur.pos.1 + d'.1, cur.pos.2 + d'.2) := by rw [hey]
  have hdd : d = d' := by
    rcases d with ⟨d1, d2⟩
    rcases d' with ⟨e1, e2⟩
    have h3 : ((cur.pos.1 + d1, cur.pos.2 + d2) : Cell) =
        (cur.pos.1 + e1, cur.pos.2 + e2) := by
      have h4 := hpp
      rw [hpx, hpy] at h4
      simpa using h4
    simp only [Prod.mk.injEq] at h3 ⊢
    omega
  rw [hex, hey, hdd]

theorem tinv_step {startPos goalPos : Cell} {walls : List Cell}
    {f : Nat} {cur : SNode} {rest : List (Nat × SNode)} {visited : List Cell}
    {pushed popped : List (List Cell)}
    (hA : AInv startPos goalPos walls ((f, cur) :: rest) visited)
    (hT : TInv startPos goalPos ((f, cur) :: rest) pushed popped) :
    TInv startPos goalPos
      (pqPushAll (expandEntries cur goalPos walls (cur.pos :: visited)) rest)
      (pushed ++ (expandEntries cur goalPos walls (cur.pos :: visited)).map
        (fun e => keyOf startPos e.2))
      (popped ++ [keyOf startPos cur]) := by
  set visited' := cur.pos :: visited with hv
  set newE := expandEntries cur goalPos walls visited' with hnewE
  set newKeys := newE.map (fun e => keyOf startPos e.2) with hnewKeys
  have hwf : EntryWF startPos goalPos walls visited (f, cur) :=
    hA.entries _ (List.mem_cons_self _ _)
  -- the cells of the popped chain are all in the updated visited set
  have hkeyvis : ∀ c ∈ keyOf startPos cur, c ∈ visited' := by
    intro c hc
    rcases List.mem_cons.1 hc with rfl | hc
    · exact List.mem_cons_of_mem _ hA.start_mem
    · have hc' : c ∈ cur.rpath := List.mem_reverse.1 hc
      rcases hrp : cur.rpath with _ | ⟨p, t⟩
      · rw [hrp] at hc'; exact absurd hc' (List.not_mem_nil c)
      · have hp : p = cur.pos := by
          have := hwf.rhead
          rw [hrp] at this
          simpa using this
        rw [hrp] at hc'
        rcases List.mem_cons.1 hc' with rfl | hc'
        · rw [hp]; exact List.mem_cons_self _ _
        · exact List.mem_cons_of_mem _
            ((hwf.rtail c (by rw [hrp]; exact hc')).1)
  have hkeycur_mem : keyOf startPos cur ∈ pushed :=
    hT.perm.mem_iff.1 (List.mem_append_left _
      (List.mem_map.2 ⟨(f, cur), List.mem_cons_self _ _, rfl⟩))
  have hkeycurOK := hT.cellsOK _ hkeycur_mem
  -- a new key never occurs among the previous pushes
  have hfresh : ∀ k ∈ newKeys, k ∉ pushed := by
    intro k hk hkp
    obtain ⟨e, he, rfl⟩ := List.mem_map.1 hk
    have hke := @keyOf_expand startPos _ _ _ _ _ he
    rcases hT.origin _ hkp with habs | ⟨_, hdrop⟩
    · rw [hke.1] at habs
      have : (keyOf startPos cur ++ [e.2.pos]).length = 1 := by rw [habs]; rfl
      rw [List.length_append, keyOf] at this
      simp at this
    · rw [hke.1, List.dropLast_concat] at hdrop
      -- then the chain of the popped entry would occur both queued and popped
      have hnodup2 : ((((f, cur) :: rest).map
          (fun e => keyOf startPos e.2)) ++ popped).Nodup :=
        hT.perm.nodup_iff.2 hT.nodup
      rcases List.nodup_append.1 hnodup2 with ⟨_, _, hdisj⟩
      exact hdisj
        (List.mem_map.2 ⟨(f, cur), List.mem_cons_self _ _, rfl⟩) hdrop
  refine ⟨?_, ?_, ?_, ?_⟩
  · rw [List.nodup_append]
    exact ⟨hT.nodup, expand_keys_nodup _ _ _ _ _,
      fun k hk hk' => hfresh k hk' hk⟩
  · -- multiset bookkeeping
    have hop : ((pqPushAll newE rest).map
        (fun e => keyOf startPos e.2)).Perm
        (newKeys ++ rest.map (fun e => keyOf startPos e.2)) := by
      have h0 := (pqPushAll_perm newE rest).map (fun e => keyOf startPos e.2)
      simpa [hnewKeys] using h0
    have step1 := hop.append_right (popped ++ [keyOf startPos cur])
    have step2 : ((newKeys ++ rest.map (fun e => keyOf startPos e.2)) ++
        (popped ++ [keyOf startPos cur])) =
        newKeys ++ ((rest.map (fun e => keyOf startPos e.2) ++ popped) ++
          [keyOf startPos cur]) := by
      simp [List.append_assoc]
    have pA : (((pqPushAll newE rest).map (fun e => keyOf startPos e.2)) ++
        (popped ++ [keyOf startPos cur])).Perm
        (newKeys ++ ((rest.map (fun e => keyOf startPos e.2) ++ popped) ++
          [keyOf startPos cur])) := by
      rw [← step2]
      exact step1
    have pB : (newKeys ++ ((rest.map (fun e => keyOf startPos e.2) ++ popped)
        ++ [keyOf startPos cur])).Perm (newKeys ++ pushed) := by
      refine List.Perm.append_left newKeys ?_
      refine (List.perm_append_singleton _ _).trans ?_
      have hform : keyOf startPos cur ::
          (rest.map (fun e => keyOf startPos e.2) ++ popped) =
          (((f, cur) :: rest).map (fun e => keyOf startPos e.2)) ++ popped := by
        simp
      rw [hform]
      exact hT.perm
    exact (pA.trans pB).trans List.perm_append_comm
  · intro k hk
    rcases List.mem_append.1 hk with hk | hk
    · rcases hT.origin k hk with h | ⟨h1, h2⟩
      · exact Or.inl h
      · exact Or.inr ⟨h1, List.mem_append_left _ h2⟩
    · obtain ⟨e, he, rfl⟩ := List.mem_map.1 hk
      have hke := @keyOf_expand startPos _ _ _ _ _ he
      refine Or.inr ⟨by simp [hke.1, keyOf], ?_⟩
      rw [hke.1, List.dropLast_concat]
      exact List.mem_append_right _ (List.mem_cons_self _ _)
  · intro k hk
    rcases List.mem_append.1 hk with hk | hk
    · exact hT.cellsOK k hk
    · obtain ⟨e, he, rfl⟩ := List.mem_map.1 hk
      have hke := @keyOf_expand startPos _ _ _ _ _ he
      rw [hke.1]
      constructor
      · rw [List.nodup_append]
        refine ⟨hkeycurOK.1, List.nodup_singleton _, ?_⟩
        intro c hc hc'
        have : c = e.2.pos := by simpa using hc'
        exact hke.2.1 (this ▸ hkeyvis c hc)
      · intro c hc
        rcases List.mem_append.1 hc with hc | hc
        · exact hkeycurOK.2 c hc
        · have : c = e.2.pos := by simpa using hc
          rw [this]
          exact okStep_mem_SCells hke.2.2

theorem tinv_length_bound {startPos goalPos : Cell}
    {op : List (Nat × SNode)} {pushed popped : List (List Cell)}
    (hT : TInv startPos goalPos op pushed popped) :
    popped.length ≤ NBOUND := by
  have h1 : pushed.length ≤ 84 ^ 83 := by
    have hb := chainlist_length_le (SCells startPos goalPos) pushed
      hT.nodup hT.cellsOK
    rw [SCells_length] at hb
    exact hb
  have h2 : popped.length ≤ pushed.length := by
    have hp := hT.perm.length_eq
    rw [List.length_append] at hp
    omega
  have hN : NBOUND = 84 ^ 83 := rfl
  omega

theorem aStarLoop_none_bound {startPos goalPos : Cell} {walls : List Cell} :
    ∀ (fuel : Nat) (op : List (Nat × SNode)) (visited : List Cell)
      (pushed popped : List (List Cell)),
      AInv startPos goalPos walls op visited →
      TInv startPos goalPos op pushed popped →
      aStarLoop goalPos walls fuel op visited = none →
      fuel + popped.length ≤ NBOUND := by
  intro fuel
  induction fuel with
  | zero =>
    intro op visited pushed popped _ hT _
    simpa using tinv_length_bound hT
  | succ fuel ih =>
    intro op visited pushed popped hA hT hnone
    rcases op with _ | ⟨⟨f, cur⟩, rest⟩
    · exact absurd hnone (by simp [aStarLoop])
    · by_cases hpos : cur.pos = goalPos
      · exact absurd hnone (by simp [aStarLoop, hpos])
      · have hnone' : aStarLoop goalPos walls fuel
            (pqPushAll (expandEntries cur goalPos walls (cur.pos :: visited))
              rest) (cur.pos :: visited) = none := by
          have heq : aStarLoop goalPos walls (fuel + 1) ((f, cur) :: rest)
              visited = aStarLoop goalPos walls fuel
              (pqPushAll (expandEntries cur goalPos walls
                (cur.pos :: visited)) rest) (cur.pos :: visited) := by
            simp [aStarLoop, hpos]
          rw [heq] at hnone
          exact hnone
        have hb := ih _ _ _ _ (step_preserves hA hpos) (tinv_step hA hT) hnone'
        rw [List.length_append] at hb
        simp only [List.length_singleton] at hb
        omega

/-! ### The invariants hold after the first iteration -/
theorem initial_AInv {startPos goalPos : Cell} {walls : List Cell}
    (hne : startPos ≠ goalPos) :
    AInv startPos goalPos walls
      (pqPushAll (expandEntries ⟨startPos, 0, []⟩ goalPos walls [startPos]) [])
      [startPos] := by
  refine ⟨?_, ?_, List.mem_cons_self _ _, ?_, ?_⟩
  · exact pqPushAll_sorted List.Pairwise.nil
  · intro e he
    rcases mem_pqPushAll.1 he with he | he
    · obtain ⟨d, hd, hok, hnv, rfl⟩ := mem_expandEntries.1 he
      refine ⟨rfl, by simp, by simp, rfl, ?_, ?_, by simp⟩
      · simp only [List.reverse_cons, List.reverse_nil, List.nil_append]
        exact List.chain_cons.2 ⟨⟨d, hd, rfl⟩, List.Chain.nil⟩
      · intro c hc
        have hcn : c = ((⟨startPos, 0, []⟩ : SNode).pos.1 + d.1,
            (⟨startPos, 0, []⟩ : SNode).pos.2 + d.2) := by
          simpa using hc
        refine ⟨hcn ▸ hok, ?_⟩
        intro hcs
        exact hnv (by rw [← hcn, hcs]; exact List.mem_cons_self _ _)
    · exact absurd he (List.not_mem_nil e)
  · intro hg
    rcases List.mem_cons.1 hg with hg | hg
    · exact hne hg.symm
    · exact absurd hg (List.not_mem_nil _)
  · refine ⟨fun _ => 0, ?_, fun c _ n _ => Nat.zero_le n⟩
    intro c hc d hd hok
    have hcs : c = startPos := by
      rcases List.mem_cons.1 hc with h | h
      · exact h
      · exact absurd h (List.not_mem_nil c)
    subst hcs
    by_cases hnv : (c.1 + d.1, c.2 + d.2) ∈ [c]
    · exact Or.inl hnv
    · right
      refine ⟨((⟨c, 0, []⟩ : SNode).g + 1 +
          heuristic ((⟨c, 0, []⟩ : SNode).pos.1 + d.1,
            (⟨c, 0, []⟩ : SNode).pos.2 + d.2) goalPos,
        ⟨((⟨c, 0, []⟩ : SNode).pos.1 + d.1,
            (⟨c, 0, []⟩ : SNode).pos.2 + d.2), (⟨c, 0, []⟩ : SNode).g + 1,
          ((⟨c, 0, []⟩ : SNode).pos.1 + d.1,
            (⟨c, 0, []⟩ : SNode).pos.2 + d.2) ::
            (⟨c, 0, []⟩ : SNode).rpath⟩), ?_, rfl, by simp⟩
      exact mem_pqPushAll.2 (Or.inl (mem_expandEntries.2 ⟨d, hd, hok, hnv, rfl⟩))

theorem initial_TInv {startPos goalPos : Cell} {walls : List Cell} :
    TInv startPos goalPos
      (pqPushAll (expandEntries ⟨startPos, 0, []⟩ goalPos walls [startPos]) [])
      ([startPos] ::
        (expandEntries ⟨startPos, 0, []⟩ goalPos walls [startPos]).map
          (fun e => keyOf startPos e.2))
      [[startPos]] := by
  have hkey : ∀ e ∈ expandEntries (⟨startPos, 0, []⟩ : SNode) goalPos walls
      [startPos], keyOf startPos e.2 = [startPos, e.2.pos] ∧
      e.2.pos ∉ [startPos] ∧ okStep goalPos walls e.2.pos := by
    intro e he
    have h := @keyOf_expand startPos _ _ _ _ _ he
    refine ⟨?_, h.2.1, h.2.2⟩
    rw [h.1]
    simp [keyOf]
  refine ⟨?_, ?_, ?_, ?_⟩
  · rw [List.nodup_cons]
    refine ⟨?_, expand_keys_nodup _ _ _ _ _⟩
    intro hmem
    obtain ⟨e, he, hk⟩ := List.mem_map.1 hmem
    rw [(hkey e he).1] at hk
    exact absurd (congrArg List.length hk) (by simp)
  · have hperm : ((pqPushAll (expandEntries (⟨startPos, 0, []⟩ : SNode)
        goalPos walls [startPos]) []).map
          (fun e => keyOf startPos e.2)).Perm
        ((expandEntries (⟨startPos, 0, []⟩ : SNode) goalPos walls
          [startPos]).map (fun e => keyOf startPos e.2)) := by
      have h0 := (pqPushAll_perm
        (expandEntries (⟨startPos, 0, []⟩ : SNode) goalPos walls [startPos])
        []).map (fun e => keyOf startPos e.2)
      simpa using h0
    have h1 := hperm.append_right [[startPos]]
    exact h1.trans (List.perm_append_singleton _ _)
  · intro k hk
    rcases List.mem_cons.1 hk with rfl | hk
    · exact Or.inl rfl
    · obtain ⟨e, he, rfl⟩ := List.mem_map.1 hk
      rw [(hkey e he).1]
      exact Or.inr ⟨by simp, by simp⟩
  · intro k hk
    rcases List.mem_cons.1 hk with rfl | hk
    · exact ⟨List.nodup_singleton _, by
        intro c hc
        rcases List.mem_singleton.1 hc with rfl
        exact List.mem_cons_self _ _⟩
    · obtain ⟨e, he, rfl⟩ := List.mem_map.1 hk
      rw [(hkey e he).1]
      constructor
      · refine List.nodup_cons.2 ⟨?_, List.nodup_singleton _⟩
        intro hmem
        rcases List.mem_singleton.1 hmem with h
        exact (hkey e he).2.1 (by rw [← h]; exact List.mem_cons_self _ _)
      · intro c hc
        rcases List.mem_cons.1 hc with rfl | hc
        · exact List.mem_cons_self _ _
        · rcases List.mem_singleton.1 hc with rfl
          exact okStep_mem_SCells (hkey e he).2.2

/-- The full specification of `a_star` when start and goal differ: a
nonempty result is a valid path of minimal length avoiding the start, and
the empty result occurs exactly when no valid path exists. -/
theorem a_star_spec (startPos goalPos : Cell) (walls : List Cell)
    (hne : startPos ≠ goalPos) :
    (a_star startPos goalPos walls ≠ [] →
      ValidPath startPos goalPos walls (a_star startPos goalPos walls) ∧
      startPos ∉ a_star startPos goalPos walls ∧
      ∀ l, ValidPath startPos goalPos walls l →
        (a_star startPos goalPos walls).length ≤ l.length) ∧
    (a_star startPos goalPos walls = [] ↔
      ∀ l, ¬ ValidPath startPos goalPos walls l) := by
  have hA := @initial_AInv _ _ walls hne
  have hT := @initial_TInv startPos goalPos walls
  obtain ⟨res, hres⟩ : ∃ res, aStarLoop goalPos walls NBOUND
      (pqPushAll (expandEntries ⟨startPos, 0, []⟩ goalPos walls [startPos]) [])
      [startPos] = some res := by
    rcases hcase : aStarLoop goalPos walls NBOUND
        (pqPushAll (expandEntries ⟨startPos, 0, []⟩ goalPos walls [startPos])
          []) [startPos] with _ | res
    · exfalso
      have hb := aStarLoop_none_bound NBOUND _ _ _ _ hA hT hcase
      simp only [List.length_singleton] at hb
      omega
    · exact ⟨res, rfl⟩
  have heq : a_star startPos goalPos walls = res := by
    unfold a_star FUEL
    have hstep : aStarLoop goalPos walls (NBOUND + 1)
        [(0, ⟨startPos, 0, []⟩)] [] = aStarLoop goalPos walls NBOUND
        (pqPushAll (expandEntries ⟨startPos, 0, []⟩ goalPos walls [startPos])
          []) [startPos] := by
      rw [show aStarLoop goalPos walls (NBOUND + 1)
          [(0, ⟨startPos, 0, []⟩)] [] =
          if (⟨startPos, 0, []⟩ : SNode).pos = goalPos then
            some (⟨startPos, 0, []⟩ : SNode).rpath.reverse
          else aStarLoop goalPos walls NBOUND
            (pqPushAll (expandEntries ⟨startPos, 0, []⟩ goalPos walls
              ((⟨startPos, 0, []⟩ : SNode).pos :: []))
              []) ((⟨startPos, 0, []⟩ : SNode).pos :: []) from rfl]
      rw [if_neg (show (⟨startPos, 0, []⟩ : SNode).pos ≠ goalPos from hne)]
    rw [hstep, hres]
    rfl
  have hcor := aStarLoop_correct NBOUND _ _ hA res hres
  rw [heq]
  refine ⟨hcor.1, ?_, ?_⟩
  · exact hcor.2
  · intro hnp
    by_contra hne2
    exact hnp _ (hcor.1 hne2).1

/-- With `start == goal` the very first pop is the goal and the parent chain
is empty, so the reconstruction returns the empty list. -/
theorem a_star_start_eq_goal (p : Cell) (W : List Cell) : a_star p p W = [] := by
  unfold a_star FUEL
  rw [show aStarLoop p W (NBOUND + 1) [(0, ⟨p, 0, []⟩)] [] =
      if (⟨p, 0, []⟩ : SNode).pos = p then
        some (⟨p, 0, []⟩ : SNode).rpath.reverse
      else aStarLoop p W NBOUND
        (pqPushAll (expandEntries ⟨p, 0, []⟩ p W
          ((⟨p, 0, []⟩ : SNode).pos :: [])) [])
        ((⟨p, 0, []⟩ : SNode).pos :: []) from rfl]
  rw [if_pos rfl]
  rfl

/-- The first cell of a returned path is never the start, and is either the
goal or an unwalled cell. -/
theorem a_star_head_ok {startPos goalPos : Cell} {walls : List Cell}
    {c : Cell} {t : List Cell}
    (h : a_star startPos goalPos walls = c :: t) :
    c ≠ startPos ∧ (c = goalPos ∨ (inInterior c ∧ c ∉ walls)) := by
  by_cases hne : startPos = goalPos
  · rw [hne, a_star_start_eq_goal] at h
    exact absurd h.symm (List.cons_ne_nil c t)
  · have hspec := (a_star_spec startPos goalPos walls hne).1
      (by rw [h]; exact List.cons_ne_nil c t)
    obtain ⟨⟨_, hlast, _, hdl⟩, hstart, _⟩ := hspec
    rw [h] at hstart hdl hlast
    constructor
    · intro hc
      exact hstart (hc ▸ List.mem_cons_self c t)
    · rcases t with _ | ⟨y, t'⟩
      · left
        simpa using hlast
      · right
        exact hdl c (by simp)

/-! ### The three path-search claims -/

/-- C1.  For every wall set `W` and start and goal with `start ≠ goal`: a
nonempty result of `a_star` is itself a valid path (unit cardinal steps,
interior and unwalled except for the final goal cell) whose length is
minimal among all such paths; and `a_star` returns the empty list exactly
when no such path exists. -/
theorem claim_C1_astar_optimal (startPos goalPos : Cell) (walls : List Cell)
    (hne : startPos ≠ goalPos) :
    (a_star startPos goalPos walls ≠ [] →
      ValidPath startPos goalPos walls (a_star startPos goalPos walls) ∧
      ∀ l, ValidPath startPos goalPos walls l →
        (a_star startPos goalPos walls).length ≤ l.length) ∧
    (a_star startPos goalPos walls = [] ↔
      ¬ ∃ l, ValidPath startPos goalPos walls l) := by
  have h := a_star_spec startPos goalPos walls hne
  refine ⟨fun hn => ⟨(h.1 hn).1, (h.1 hn).2.2⟩, ?_⟩
  rw [h.2]
  constructor
  · intro hall ⟨l, hl⟩
    exact hall l hl
  · intro hne2 l hl
    exact hne2 ⟨l, hl⟩

theorem claim_C1_astar_optimal_witness :
    (((1, 0) : Cell) ≠ ((3, 0) : Cell)) ∧
    ((a_star (1, 0) (3, 0) [] ≠ [] →
      ValidPath (1, 0) (3, 0) [] (a_star (1, 0) (3, 0) []) ∧
      ∀ l, ValidPath (1, 0) (3, 0) [] l →
        (a_star (1, 0) (3, 0) []).length ≤ l.length) ∧
    (a_star (1, 0) (3, 0) [] = [] ↔
      ¬ ∃ l, ValidPath (1, 0) (3, 0) [] l)) :=
  ⟨by decide, claim_C1_astar_optimal (1, 0) (3, 0) [] (by decide)⟩

/-- C5.  For every position `p` and wall set `W`, `a_star p p W` is the
empty list, the same value as the unreachable case: the goal test succeeds
on the root node, whose parent chain is empty. -/
theorem claim_C5_start_eq_goal (p : Cell) (W : List Cell) :
    a_star p p W = [] :=
  a_star_start_eq_goal p W

/-- C10.  Every nonempty returned path consists of unit cardinal steps
(including the step from the start to the first cell), ends on the goal,
never contains the start, and has every cell except the final goal cell
interior and unwalled; and the final goal cell is accepted even when it is a
wall, as the concrete run with the goal in the wall set shows (the goal test
precedes the wall test). -/
theorem claim_C10_path_shape :
    (∀ (startPos goalPos : Cell) (walls : List Cell),
      a_star startPos goalPos walls ≠ [] →
      List.Chain adjacent startPos (a_star startPos goalPos walls) ∧
      (a_star startPos goalPos walls).getLast? = some goalPos ∧
      startPos ∉ a_star startPos goalPos walls ∧
      ∀ c ∈ (a_star startPos goalPos walls).dropLast,
        inInterior c ∧ c ∉ walls) ∧
    a_star (1, 4) (2, 4) [(2, 4)] = [(2, 4)] := by
  constructor
  · intro startPos goalPos walls hn
    by_cases hne : startPos = goalPos
    · rw [hne, a_star_start_eq_goal] at hn
      exact absurd rfl hn
    · obtain ⟨⟨_, hlast, hch, hdl⟩, hstart, _⟩ :=
        (a_star_spec startPos goalPos walls hne).1 hn
      exact ⟨hch, hlast, hstart, hdl⟩
  · decide

theorem claim_C10_path_shape_witness :
    (a_star (1, 4) (2, 4) [(2, 4)] ≠ []) ∧
    (List.Chain adjacent (1, 4) (a_star (1, 4) (2, 4) [(2, 4)]) ∧
      (a_star (1, 4) (2, 4) [(2, 4)]).getLast? = some (2, 4) ∧
      ((1, 4) : Cell) ∉ a_star (1, 4) (2, 4) [(2, 4)] ∧
      ∀ c ∈ (a_star (1, 4) (2, 4) [(2, 4)]).dropLast,
        inInterior c ∧ c ∉ [(2, 4)]) :=
  ⟨by decide, claim_C10_path_shape.1 (1, 4) (2, 4) [(2, 4)] (by decide)⟩

/-- A visited cell is never pushed in the remainder of the run. -/
theorem events_no_push_of_visited {goalPos : Cell} {walls : List Cell} :
    ∀ (fuel : Nat) (op : List (Nat × SNode)) (visited : List Cell) (c : Cell),
      c ∈ visited →
      SEvent.pushCell c ∉ aStarEvents goalPos walls fuel op visited := by
  intro fuel
  induction fuel with
  | zero => intro op visited c _ h; exact absurd h (List.not_mem_nil _)
  | succ fuel ih =>
    intro op visited c hc h
    rcases op with _ | ⟨⟨f, cur⟩, rest⟩
    · exact absurd h (List.not_mem_nil _)
    · by_cases hpos : cur.pos = goalPos
      · rw [show aStarEvents goalPos walls (fuel + 1) ((f, cur) :: rest)
            visited = [SEvent.popCell cur.pos] by
          simp [aStarEvents, hpos]] at h
        rcases List.mem_singleton.1 h
      · rw [show aStarEvents goalPos walls (fuel + 1) ((f, cur) :: rest)
            visited = SEvent.popCell cur.pos ::
              (((expandEntries cur goalPos walls (cur.pos :: visited)).map
                (fun e => SEvent.pushCell e.2.pos)) ++
              aStarEvents goalPos walls fuel
                (pqPushAll (expandEntries cur goalPos walls
                  (cur.pos :: visited)) rest) (cur.pos :: visited)) by
          simp [aStarEvents, hpos]] at h
        rcases List.mem_cons.1 h with h | h
        · exact absurd h (by simp)
        · rcases List.mem_append.1 h with h | h
          · obtain ⟨e, he, hev⟩ := List.mem_map.1 h
            have hnv := (@keyOf_expand cur.pos _ _ _ _ _ he).2.1
            have : e.2.pos = c := by
              have := hev
              simpa [SEvent.pushCell.injEq] using this
            exact hnv (this ▸ List.mem_cons_of_mem _ hc)
          · exact ih _ _ c (List.mem_cons_of_mem _ hc) h

/-- In any event trace of the loop, no cell is pushed after it has been
popped (a non-goal pop is what inserts the cell into the visited set). -/
theorem events_no_push_after_pop {goalPos : Cell} {walls : List Cell} :
    ∀ (fuel : Nat) (op : List (Nat × SNode)) (visited : List Cell)
      (l₁ : List SEvent) (c : Cell) (l₂ : List SEvent),
      aStarEvents goalPos walls fuel op visited =
        l₁ ++ SEvent.popCell c :: l₂ →
      SEvent.pushCell c ∉ l₂ := by
  intro fuel
  induction fuel with
  | zero =>
    intro op visited l₁ c l₂ h
    exact absurd h.symm (by simp [aStarEvents])
  | succ fuel ih =>
    intro op visited l₁ c l₂ h
    rcases op with _ | ⟨⟨f, cur⟩, rest⟩
    · exact absurd h.symm (by simp [aStarEvents])
    · by_cases hpos : cur.pos = goalPos
      · rw [show aStarEvents goalPos walls (fuel + 1) ((f, cur) :: rest)
            visited = [SEvent.popCell cur.pos] by
          simp [aStarEvents, hpos]] at h
        rcases l₁ with _ | ⟨x, l₁'⟩
        · rw [List.nil_append, List.cons.injEq] at h
          rw [← h.2]
          exact List.not_mem_nil _
        · exfalso
          have hlen := congrArg List.length h
          simp at hlen
      · rw [show aStarEvents goalPos walls (fuel + 1) ((f, cur) :: rest)
            visited = SEvent.popCell cur.pos ::
              (((expandEntries cur goalPos walls (cur.pos :: visited)).map
                (fun e => SEvent.pushCell e.2.pos)) ++
              aStarEvents goalPos walls fuel
                (pqPushAll (expandEntries cur goalPos walls
                  (cur.pos :: visited)) rest) (cur.pos :: visited)) by
          simp [aStarEvents, hpos]] at h
        rcases l₁ with _ | ⟨x, l₁'⟩
        · -- the popped cell is the one just popped
          rw [List.nil_append, List.cons.injEq] at h
          have hc : cur.pos = c := by simpa using h.1
          rw [← h.2]
          intro hmem
          rcases List.mem_append.1 hmem with hmem | hmem
          · obtain ⟨e, he, hev⟩ := List.mem_map.1 hmem
            have hnv := (@keyOf_expand cur.pos _ _ _ _ _ he).2.1
            have hpe : e.2.pos = c := by simpa using hev
            exact hnv (by rw [hpe, ← hc]; exact List.mem_cons_self _ _)
          · exact events_no_push_of_visited fuel _ _ c
              (hc ▸ List.mem_cons_self cur.pos visited) hmem
        · -- the pop of interest lies further along the trace
          rw [List.cons_append, List.cons.injEq] at h
          have hrest := h.2
          rcases (List.append_eq_append_iff.1 hrest.symm) with
            ⟨a', ha1, ha2⟩ | ⟨a', ha1, ha2⟩
          · -- the boundary falls inside the push block or exactly at its end
            rcases a' with _ | ⟨y, a''⟩
            · rw [List.nil_append] at ha2
              exact ih _ _ [] c l₂ (by rw [List.nil_append]; exact ha2.symm)
            · have hy : y ∈ (expandEntries cur goalPos walls
                  (cur.pos :: visited)).map
                    (fun e => SEvent.pushCell e.2.pos) := by
                rw [ha1]
                exact List.mem_append_right _ (List.mem_cons_self _ _)
              obtain ⟨e, _, hev⟩ := List.mem_map.1 hy
              have hy2 : y = SEvent.popCell c := by
                have := ha2
                rw [List.cons_append, List.cons.injEq] at this
                exact this.1.symm
              rw [hy2] at hev
              exact absurd hev (by simp)
          · exact ih _ _ a' c l₂ ha2

/-- C2 counterexample.  In the run of `a_star` from `(1, 0)` towards the
unreachable goal `(9, 8)` with walls sealing the four-cell pocket around the
start, the cell `(2, 1)` is popped twice: two entries for it are pushed
before its first pop, and the second pop generates its neighbours again
(the run never pops the goal, as the empty result shows, so both pops
expand). -/
theorem claim_C2_counterexample :
    (a_star_events (1, 0) (9, 8) [(3, 0), (3, 1), (2, 2), (1, 2)]).count
      (SEvent.popCell (2, 1)) = 2 ∧
    a_star (1, 0) (9, 8) [(3, 0), (3, 1), (2, 2), (1, 2)] = [] := by
  decide

/-- C2 amended.  What does hold: once a cell has been popped, no entry for
it is ever pushed onto the priority queue again in the same invocation
(every push is filtered by the visited set, which the first pop extended);
re-expansion of a visited cell can still occur through entries that were
already queued before its first pop. -/
theorem claim_C2_no_push_after_pop (startPos goalPos : Cell)
    (walls : List Cell) (l₁ : List SEvent) (c : Cell) (l₂ : List SEvent)
    (h : a_star_events startPos goalPos walls =
      l₁ ++ SEvent.popCell c :: l₂) :
    SEvent.pushCell c ∉ l₂ :=
  events_no_push_after_pop FUEL _ _ l₁ c l₂ h

theorem claim_C2_no_push_after_pop_witness :
    (a_star_events (1, 0) (2, 0) [] =
      [] ++ SEvent.popCell (1, 0) ::
        [SEvent.pushCell (2, 0), SEvent.pushCell (1, 1),
          SEvent.popCell (2, 0)]) ∧
    SEvent.pushCell (1, 0) ∉
      [SEvent.pushCell (2, 0), SEvent.pushCell (1, 1),
        SEvent.popCell (2, 0)] :=
  ⟨by decide,
    claim_C2_no_push_after_pop (1, 0) (2, 0) [] [] (1, 0)
      [SEvent.pushCell (2, 0), SEvent.pushCell (1, 1),
        SEvent.popCell (2, 0)] (by decide)⟩

/-! ### The game state and its operations -/

/-! ### Field-preservation lemmas for the phases of `handle_ai_turn` -/
theorem winCheck_walls (g : GameState) (b : Bool) :
    (winCheck g b).walls = g.walls := by
  unfold winCheck; split_ifs <;> rfl

theorem winCheck_player_pos (g : GameState) (b : Bool) :
    (winCheck g b).player_pos = g.player_pos := by
  unfold winCheck; split_ifs <;> rfl

theorem winCheck_ai_pos (g : GameState) (b : Bool) :
    (winCheck g b).ai_pos = g.ai_pos := by
  unfold winCheck; split_ifs <;> rfl

theorem winCheck_player_walls_used (g : GameState) (b : Bool) :
    (winCheck g b).player_walls_used = g.player_walls_used := by
  unfold winCheck; split_ifs <;> rfl

theorem winCheck_ai_walls_used (g : GameState) (b : Bool) :
    (winCheck g b).ai_walls_used = g.ai_walls_used := by
  unfold winCheck; split_ifs <;> rfl

theorem aiMovePhase_walls (g : GameState) (b : Bool) :
    (aiMovePhase g b).walls = g.walls := by
  simp only [aiMovePhase]
  split
  · rfl
  · split <;> rfl

theorem aiMovePhase_player_walls_used (g : GameState) (b : Bool) :
    (aiMovePhase g b).player_walls_used = g.player_walls_used := by
  simp only [aiMovePhase]
  split
  · rfl
  · split <;> rfl

theorem aiMovePhase_ai_walls_used (g : GameState) (b : Bool) :
    (aiMovePhase g b).ai_walls_used = g.ai_walls_used := by
  simp only [aiMovePhase]
  split
  · rfl
  · split <;> rfl

theorem aiWallPhase_player_pos (g : GameState) (b : Bool) :
    (aiWallPhase g b).player_pos = g.player_pos := by
  simp only [aiWallPhase]
  repeat' split
  all_goals rfl

theorem aiWallPhase_ai_pos (g : GameState) (b : Bool) :
    (aiWallPhase g b).ai_pos = g.ai_pos := by
  simp only [aiWallPhase]
  repeat' split
  all_goals rfl

/-- The acting side's position after the movement phase: the head of its own
freshly computed path when that path is nonempty, its old position
otherwise. -/
theorem aiMovePhase_acting_pos (g : GameState) (b : Bool) :
    (if b then (aiMovePhase g b).player_pos else (aiMovePhase g b).ai_pos) =
      (a_star (if b then g.player_pos else g.ai_pos)
          (if b then player_goal else ai_goal) g.walls).headD
        (if b then g.player_pos else g.ai_pos) := by
  cases b <;> simp only [aiMovePhase, Bool.false_eq_true, if_true, if_false]
  · cases h : a_star g.ai_pos ai_goal g.walls <;> simp [h]
  · cases h : a_star g.player_pos player_goal g.walls <;> simp [h]

/-- The non-acting side's position is untouched by the movement phase. -/
theorem aiMovePhase_other_pos (g : GameState) (b : Bool) :
    (if b then (aiMovePhase g b).ai_pos else (aiMovePhase g b).player_pos) =
      (if b then g.ai_pos else g.player_pos) := by
  cases b <;> simp only [aiMovePhase, Bool.false_eq_true, if_true, if_false]
  · cases h : a_star g.ai_pos ai_goal g.walls <;> simp [h]
  · cases h : a_star g.player_pos player_goal g.walls <;> simp [h]

/-- C7.  In every invocation of `handle_ai_turn`, whatever the wall-blocking
step did, the acting side's own path is recomputed against the wall set as
left by the wall phase, and the side's final position is that path's first
element when the path is nonempty (its old position otherwise); the wall set
is not changed after the wall phase. -/
theorem claim_C7_move_uses_post_wall_paths (g : GameState) (b : Bool) :
    (handle_ai_turn g b).walls =
      (aiWallPhase { g with turn_counter := g.turn_counter + 1 } b).walls ∧
    (if b then (handle_ai_turn g b).player_pos
     else (handle_ai_turn g b).ai_pos) =
      (a_star
          (if b then
            (aiWallPhase { g with turn_counter := g.turn_counter + 1 } b).player_pos
          else
            (aiWallPhase { g with turn_counter := g.turn_counter + 1 } b).ai_pos)
          (if b then player_goal else ai_goal)
          (aiWallPhase { g with turn_counter := g.turn_counter + 1 } b).walls).headD
        (if b then
          (aiWallPhase { g with turn_counter := g.turn_counter + 1 } b).player_pos
        else
          (aiWallPhase { g with turn_counter := g.turn_counter + 1 } b).ai_pos) := by
  unfold handle_ai_turn
  generalize aiWallPhase { g with turn_counter := g.turn_counter + 1 } b = g1
  refine ⟨by rw [winCheck_walls, aiMovePhase_walls], ?_⟩
  have h2 := aiMovePhase_acting_pos g1 b
  cases b
  · rw [if_neg (by simp), if_neg (by simp)] at h2 ⊢
    rw [winCheck_ai_pos, h2]
  · rw [if_pos rfl, if_pos rfl] at h2 ⊢
    rw [winCheck_player_pos, h2]


/-! ### The invariant of reachable game states -/
theorem mem_wallAdd {w : List Cell} {c x : Cell} :
    x ∈ wallAdd w c ↔ x = c ∨ x ∈ w := by
  unfold wallAdd; split
  · rename_i hc
    constructor
    · exact Or.inr
    · rintro (rfl | hx)
      · exact hc
      · exact hx
  · simp [List.mem_cons]

/-- Case analysis of the wall phase: it either leaves the state unchanged, or
commits the head of the opponent's current path, with both no-trap checks
true and the acting side's budget available. -/
theorem aiWallPhase_cases (g : GameState) (b : Bool) :
    aiWallPhase g b = g ∨
    ∃ block rest,
      a_star (if b then g.ai_pos else g.player_pos)
          (if b then ai_goal else player_goal) g.walls = block :: rest ∧
      a_star g.player_pos player_goal (wallAdd g.walls block) ≠ [] ∧
      a_star g.ai_pos ai_goal (wallAdd g.walls block) ≠ [] ∧
      (if b then g.player_walls_used else g.ai_walls_used) <
        MAX_WALLS_PER_PLAYER ∧
      aiWallPhase g b =
        (if b then
          { g with walls := wallAdd g.walls block,
                   player_walls_used := g.player_walls_used + 1 }
        else
          { g with walls := wallAdd g.walls block,
                   ai_walls_used := g.ai_walls_used + 1 }) := by
  cases b <;> simp only [aiWallPhase, Bool.false_eq_true, if_false, if_true]
  · split
    · rename_i hbud
      split
      · exact Or.inl rfl
      · rename_i block rest heq
        split
        · rename_i hg
          exact Or.inr ⟨block, rest, heq, hg.1, hg.2, hbud, rfl⟩
        · exact Or.inl rfl
    · exact Or.inl rfl
  · split
    · rename_i hbud
      split
      · exact Or.inl rfl
      · rename_i block rest heq
        split
        · rename_i hg
          exact Or.inr ⟨block, rest, heq, hg.1, hg.2, hbud, rfl⟩
        · exact Or.inl rfl
    · exact Or.inl rfl

/-- Case analysis of the movement phase: either the acting side's path is
empty and nothing changes, or the side steps onto the path's head. -/
theorem aiMovePhase_cases (g : GameState) (b : Bool) :
    (a_star (if b then g.player_pos else g.ai_pos)
        (if b then player_goal else ai_goal) g.walls = [] ∧
      aiMovePhase g b = g) ∨
    ∃ step rest,
      a_star (if b then g.player_pos else g.ai_pos)
          (if b then player_goal else ai_goal) g.walls = step :: rest ∧
      aiMovePhase g b =
        (if b then { g with player_pos := step }
         else { g with ai_pos := step }) := by
  cases b <;> simp only [aiMovePhase, Bool.false_eq_true, if_false, if_true]
  · cases h : a_star g.ai_pos ai_goal g.walls with
    | nil => exact Or.inl ⟨rfl, rfl⟩
    | cons s t => exact Or.inr ⟨s, t, rfl, rfl⟩
  · cases h : a_star g.player_pos player_goal g.walls with
    | nil => exact Or.inl ⟨rfl, rfl⟩
    | cons s t => exact Or.inr ⟨s, t, rfl, rfl⟩

/-- C4.  Whenever a wall placement is committed by either the human click
path or `handle_ai_turn`, both sides keep a nonempty `a_star` path from
their current positions under the new wall set.  A commit is detected by
the acting side's counter increment — the source increments exactly when it
assigns the candidate set — which also covers commits whose block cell was
already a wall (there `wall_add` is the identity and the wall set does not
change).  For the click path the new wall set is the candidate itself. -/
theorem claim_C4_committed_walls_leave_paths :
    (∀ (g : GameState) (c : Cell),
      (clickWall g c).player_walls_used ≠ g.player_walls_used →
      (clickWall g c).walls = wallAdd g.walls c ∧
      a_star g.player_pos player_goal (clickWall g c).walls ≠ [] ∧
      a_star g.ai_pos ai_goal (clickWall g c).walls ≠ []) ∧
    (∀ (g : GameState) (b : Bool),
      (if b then (handle_ai_turn g b).player_walls_used
       else (handle_ai_turn g b).ai_walls_used) ≠
        (if b then g.player_walls_used else g.ai_walls_used) →
      a_star g.player_pos player_goal (handle_ai_turn g b).walls ≠ [] ∧
      a_star g.ai_pos ai_goal (handle_ai_turn g b).walls ≠ []) := by
  constructor
  · intro g c
    simp only [clickWall]
    split
    · split
      · intro hne; exact absurd rfl hne
      · split
        · intro hne; exact absurd rfl hne
        · split
          · rename_i hg
            intro _
            exact ⟨rfl, hg.1, hg.2⟩
          · intro hne; exact absurd rfl hne
    · intro hne; exact absurd rfl hne
  · intro g b
    rcases aiWallPhase_cases { g with turn_counter := g.turn_counter + 1 } b with
      hW | ⟨block, rest, hblock, hgp, hga, hbud, hW⟩
    · intro hne
      exfalso
      apply hne
      have h1 : (handle_ai_turn g b).player_walls_used =
          g.player_walls_used := by
        unfold handle_ai_turn
        rw [hW, winCheck_player_walls_used, aiMovePhase_player_walls_used]
      have h2 : (handle_ai_turn g b).ai_walls_used = g.ai_walls_used := by
        unfold handle_ai_turn
        rw [hW, winCheck_ai_walls_used, aiMovePhase_ai_walls_used]
      rw [h1, h2]
    · intro _
      have hwalls : (handle_ai_turn g b).walls = wallAdd g.walls block := by
        unfold handle_ai_turn
        rw [hW]
        cases b
        · simp only [Bool.false_eq_true, if_false]
          rw [winCheck_walls, aiMovePhase_walls]
        · simp only [if_true]
          rw [winCheck_walls, aiMovePhase_walls]
      rw [hwalls]
      exact ⟨hgp, hga⟩

/-- Witness for C4: the click at `(5,0)` on a fresh game and an AI turn from
a nearly finished literal state both commit a wall (each acting counter goes
from 0 to 1), and both sides keep nonempty paths under the new wall set. -/
theorem claim_C4_committed_walls_leave_paths_witness :
    ((clickWall reset_game (5, 0)).player_walls_used ≠
        reset_game.player_walls_used ∧
      (clickWall reset_game (5, 0)).walls = wallAdd reset_game.walls (5, 0) ∧
      a_star reset_game.player_pos player_goal
        (clickWall reset_game (5, 0)).walls ≠ [] ∧
      a_star reset_game.ai_pos ai_goal
        (clickWall reset_game (5, 0)).walls ≠ []) ∧
    ((handle_ai_turn ⟨(9, 4), (2, 4), [], 0, 0, 0, false, "", false⟩
          false).ai_walls_used ≠
        (⟨(9, 4), (2, 4), [], 0, 0, 0, false, "", false⟩ :
          GameState).ai_walls_used ∧
      a_star (9, 4) player_goal
        (handle_ai_turn ⟨(9, 4), (2, 4), [], 0, 0, 0, false, "", false⟩
          false).walls ≠ [] ∧
      a_star (2, 4) ai_goal
        (handle_ai_turn ⟨(9, 4), (2, 4), [], 0, 0, 0, false, "", false⟩
          false).walls ≠ []) := by
  have h1 := claim_C4_committed_walls_leave_paths.1 reset_game (5, 0) (by decide)
  have h2 := claim_C4_committed_walls_leave_paths.2
    ⟨(9, 4), (2, 4), [], 0, 0, 0, false, "", false⟩ false (by decide)
  exact ⟨⟨by decide, h1.1, h1.2.1, h1.2.2⟩, ⟨by decide, h2.1, h2.2⟩⟩

/-- A cleared game-over flag after the win check means no win branch fired:
the player is off its goal and the state passed through unchanged. -/
theorem winCheck_clear (g : GameState) (b : Bool)
    (h : (winCheck g b).game_over = false) :
    g.player_pos ≠ player_goal ∧ winCheck g b = g := by
  revert h
  unfold winCheck
  split_ifs with h1 h2 h3
  any_goals (intro h; simp at h)
  intro _
  exact ⟨h1, rfl⟩

/-- The win check raises the flag whenever a side stands on its goal. -/
theorem winCheck_sets_over (g : GameState) (b : Bool)
    (h : g.player_pos = player_goal ∨ g.ai_pos = ai_goal) :
    (winCheck g b).game_over = true := by
  unfold winCheck
  split_ifs with h1 h2 h3
  any_goals rfl
  rcases h with h | h <;> simp_all

/-- The player's goal condition selects the message, whatever the AI's. -/
theorem winCheck_player_message (g : GameState) (b : Bool)
    (h : g.player_pos = player_goal) :
    (winCheck g b).result_message =
      (if b then "Player AI reached the goal! Player AI wins!"
       else "You reached the AI\x27s goal! You win!") := by
  unfold winCheck
  rw [if_pos h]

/-- A keydown either leaves the state unchanged or moves the player to a cell
that is the player's goal or an unwalled interior cell, setting the
player-moved flag. -/
theorem humanMove_spec (g : GameState) (k : MoveKey)
    (hint : inInterior g.player_pos) :
    humanMove g k = g ∨
    ∃ p : Cell,
      (p = player_goal ∨ (inInterior p ∧ p ∉ g.walls)) ∧
      humanMove g k = { g with player_pos := p, player_moved := true } := by
  obtain ⟨hr1, hr2, hc1, hc2⟩ : 1 ≤ g.player_pos.1 ∧ g.player_pos.1 < 10 ∧
      0 ≤ g.player_pos.2 ∧ g.player_pos.2 < 9 := by
    simpa [inInterior, TOTAL_ROWS, BOARD_ROWS, GOAL_ROWS, BOARD_COLS]
      using hint
  cases k <;> simp only [humanMove]
  · split
    · rename_i hacc
      refine Or.inr ⟨(g.player_pos.1 - 1, g.player_pos.2), ?_, rfl⟩
      rcases hacc with he | ⟨hb, hw⟩
      · exact Or.inl he
      · refine Or.inr ⟨?_, hw⟩
        simp only [inInterior, TOTAL_ROWS, BOARD_ROWS, GOAL_ROWS, BOARD_COLS]
        omega
    · exact Or.inl rfl
  · split
    · rename_i hacc
      refine Or.inr ⟨(g.player_pos.1 + 1, g.player_pos.2), ?_, rfl⟩
      rcases hacc with he | ⟨hb, hw⟩
      · exact Or.inl he
      · refine Or.inr ⟨?_, hw⟩
        simp only [inInterior, TOTAL_ROWS, BOARD_ROWS, GOAL_ROWS, BOARD_COLS] at hb ⊢
        omega
    · exact Or.inl rfl
  · split
    · rename_i hacc
      refine Or.inr ⟨(g.player_pos.1, g.player_pos.2 - 1), ?_, rfl⟩
      refine Or.inr ⟨?_, hacc.2⟩
      have hb := hacc.1
      simp only [inInterior, TOTAL_ROWS, BOARD_ROWS, GOAL_ROWS, BOARD_COLS]
      omega
    · exact Or.inl rfl
  · split
    · rename_i hacc
      refine Or.inr ⟨(g.player_pos.1, g.player_pos.2 + 1), ?_, rfl⟩
      refine Or.inr ⟨?_, hacc.2⟩
      have hb := hacc.1
      simp only [inInterior, TOTAL_ROWS, BOARD_ROWS, GOAL_ROWS, BOARD_COLS] at hb ⊢
      omega
    · exact Or.inl rfl

theorem stateInv_reset : StateInv reset_game := by
  refine ⟨?_, ?_, ?_, ?_, ?_⟩ <;> decide

theorem midInv_of_stateInv {g : GameState} (h : StateInv g)
    (hov : g.game_over = false) : MidInv g :=
  ⟨h.1, h.2.1, h.2.2.1, h.2.2.2.1, Or.inl (h.2.2.2.2 hov)⟩

theorem clickWall_inv (g : GameState) (c : Cell) (h : StateInv g) :
    StateInv (clickWall g c) := by
  simp only [clickWall]
  split
  case isFalse _ => exact h
  case isTrue hfree =>
    split
    case isTrue _ => exact h
    case isFalse _ =>
      split
      case isTrue _ => exact h
      case isFalse hbud =>
        split
        case isFalse _ => exact h
        case isTrue hg =>
          have hfree' : ¬(c = g.player_pos ∨ c = g.ai_pos ∨
              c = player_goal ∨ c = ai_goal) := by
            simpa using hfree
          push_neg at hfree'
          obtain ⟨hpw, haw, hpp, hap, hio⟩ := h
          refine ⟨?_, haw, ?_, ?_, hio⟩
          · show g.player_walls_used + 1 ≤ MAX_WALLS_PER_PLAYER
            omega
          · show g.player_pos ∈ wallAdd g.walls c → g.player_pos = player_goal
            intro hm
            rcases mem_wallAdd.1 hm with he | hm2
            · exact absurd he.symm hfree'.1
            · exact hpp hm2
          · show g.ai_pos ∈ wallAdd g.walls c → g.ai_pos = ai_goal
            intro hm
            rcases mem_wallAdd.1 hm with he | hm2
            · exact absurd he.symm hfree'.2.1
            · exact hap hm2

theorem handle_ai_turn_inv (g : GameState) (b : Bool) (h : MidInv g) :
    StateInv (handle_ai_turn g b) := by
  obtain ⟨hpw, haw, hpp, hap, hpos⟩ := h
  unfold handle_ai_turn
  rcases aiWallPhase_cases { g with turn_counter := g.turn_counter + 1 } b with
    hW | ⟨block, rest, hblock, hgp, hga, hbud, hW⟩
  · rw [hW]
    rcases aiMovePhase_cases { g with turn_counter := g.turn_counter + 1 } b with
      ⟨hemp, hM⟩ | ⟨step, rest2, hpath, hM⟩
    · rw [hM]
      refine ⟨?_, ?_, ?_, ?_, ?_⟩
      · rw [winCheck_player_walls_used]; exact hpw
      · rw [winCheck_ai_walls_used]; exact haw
      · rw [winCheck_player_pos, winCheck_walls]; exact hpp
      · rw [winCheck_ai_pos, winCheck_walls]; exact hap
      · intro hov
        obtain ⟨hne, _⟩ := winCheck_clear _ b hov
        rw [winCheck_player_pos]
        rcases hpos with hi | he
        · exact hi
        · exact absurd he hne
    · rw [hM]
      cases b
      · simp only [Bool.false_eq_true, if_false] at hpath hM ⊢
        obtain ⟨hne, hok⟩ := a_star_head_ok hpath
        refine ⟨?_, ?_, ?_, ?_, ?_⟩
        · rw [winCheck_player_walls_used]; exact hpw
        · rw [winCheck_ai_walls_used]; exact haw
        · rw [winCheck_player_pos, winCheck_walls]; exact hpp
        · rw [winCheck_ai_pos, winCheck_walls]
          show step ∈ g.walls → step = ai_goal
          intro hm
          rcases hok with he | ⟨_, hnm⟩
          · exact he
          · exact absurd hm hnm
        · intro hov
          obtain ⟨hnp, _⟩ := winCheck_clear _ false hov
          rw [winCheck_player_pos]
          rcases hpos with hi | he
          · exact hi
          · exact absurd he hnp
      · simp only [if_true] at hpath hM ⊢
        obtain ⟨hne, hok⟩ := a_star_head_ok hpath
        refine ⟨?_, ?_, ?_, ?_, ?_⟩
        · rw [winCheck_player_walls_used]; exact hpw
        · rw [winCheck_ai_walls_used]; exact haw
        · rw [winCheck_player_pos, winCheck_walls]
          show step ∈ g.walls → step = player_goal
          intro hm
          rcases hok with he | ⟨_, hnm⟩
          · exact he
          · exact absurd hm hnm
        · rw [winCheck_ai_pos, winCheck_walls]; exact hap
        · intro hov
          obtain ⟨hnp, _⟩ := winCheck_clear _ true hov
          rw [winCheck_player_pos]
          have hnp2 : step ≠ player_goal := hnp
          rcases hok with he | ⟨hi, _⟩
          · exact absurd he hnp2
          · exact hi
  · rw [hW]
    cases b
    · simp only [Bool.false_eq_true, if_false] at hblock hgp hga hbud hW ⊢
      obtain ⟨hbne, _⟩ := a_star_head_ok hblock
      rcases aiMovePhase_cases
          { g with turn_counter := g.turn_counter + 1,
                   walls := wallAdd g.walls block,
                   ai_walls_used := g.ai_walls_used + 1 } false with
        ⟨hemp, hM⟩ | ⟨step, rest2, hpath, hM⟩
      · exact absurd hemp hga
      · rw [hM]
        obtain ⟨hsne, hok⟩ := a_star_head_ok hpath
        refine ⟨?_, ?_, ?_, ?_, ?_⟩
        · rw [winCheck_player_walls_used]; exact hpw
        · rw [winCheck_ai_walls_used]
          show g.ai_walls_used + 1 ≤ MAX_WALLS_PER_PLAYER
          omega
        · rw [winCheck_player_pos, winCheck_walls]
          show g.player_pos ∈ wallAdd g.walls block →
            g.player_pos = player_goal
          intro hm
          rcases mem_wallAdd.1 hm with he | hm2
          · exact absurd he.symm hbne
          · exact hpp hm2
        · rw [winCheck_ai_pos, winCheck_walls]
          show step ∈ wallAdd g.walls block → step = ai_goal
          intro hm
          rcases hok with he | ⟨_, hnm⟩
          · exact he
          · exact absurd hm hnm
        · intro hov
          obtain ⟨hnp, _⟩ := winCheck_clear _ false hov
          rw [winCheck_player_pos]
          rcases hpos with hi | he
          · exact hi
          · exact absurd he hnp
    · simp only [if_true] at hblock hgp hga hbud hW ⊢
      obtain ⟨hbne, _⟩ := a_star_head_ok hblock
      rcases aiMovePhase_cases
          { g with turn_counter := g.turn_counter + 1,
                   walls := wallAdd g.walls block,
                   player_walls_used := g.player_walls_used + 1 } true with
        ⟨hemp, hM⟩ | ⟨step, rest2, hpath, hM⟩
      · exact absurd hemp hgp
      · rw [hM]
        obtain ⟨hsne, hok⟩ := a_star_head_ok hpath
        refine ⟨?_, ?_, ?_, ?_, ?_⟩
        · rw [winCheck_player_walls_used]
          show g.player_walls_used + 1 ≤ MAX_WALLS_PER_PLAYER
          omega
        · rw [winCheck_ai_walls_used]; exact haw
        · rw [winCheck_player_pos, winCheck_walls]
          show step ∈ wallAdd g.walls block → step = player_goal
          intro hm
          rcases hok with he | ⟨_, hnm⟩
          · exact he
          · exact absurd hm hnm
        · rw [winCheck_ai_pos, winCheck_walls]
          show g.ai_pos ∈ wallAdd g.walls block → g.ai_pos = ai_goal
          intro hm
          rcases mem_wallAdd.1 hm with he | hm2
          · exact absurd he.symm hbne
          · exact hap hm2
        · intro hov
          obtain ⟨hnp, _⟩ := winCheck_clear _ true hov
          rw [winCheck_player_pos]
          have hnp2 : step ≠ player_goal := hnp
          rcases hok with he | ⟨hi, _⟩
          · exact absurd he hnp2
          · exact hi

theorem humanMove_mid (g : GameState) (k : MoveKey) (h : StateInv g)
    (hov : g.game_over = false) : MidInv (humanMove g k) := by
  rcases humanMove_spec g k (h.2.2.2.2 hov) with he | ⟨p, hok, he⟩
  · rw [he]
    exact ⟨h.1, h.2.1, h.2.2.1, h.2.2.2.1, Or.inl (h.2.2.2.2 hov)⟩
  · rw [he]
    refine ⟨h.1, h.2.1, ?_, h.2.2.2.1, ?_⟩
    · show p ∈ g.walls → p = player_goal
      intro hm
      rcases hok with he2 | ⟨_, hnm⟩
      · exact he2
      · exact absurd hm hnm
    · rcases hok with he2 | ⟨hi, _⟩
      · exact Or.inr he2
      · exact Or.inl hi

theorem mode0MoveFrame_inv (g : GameState) (k : MoveKey) (h : StateInv g)
    (hov : g.game_over = false) : StateInv (mode0MoveFrame g k) := by
  rw [show mode0MoveFrame g k =
      (if (humanMove g k).player_moved = true then
        { handle_ai_turn (humanMove g k) false with player_moved := false }
      else humanMove g k) from rfl]
  split
  · have hmid := humanMove_mid g k h hov
    have hfin := handle_ai_turn_inv (humanMove g k) false hmid
    exact ⟨hfin.1, hfin.2.1, hfin.2.2.1, hfin.2.2.2.1, hfin.2.2.2.2⟩
  · rename_i hnm
    rcases humanMove_spec g k (h.2.2.2.2 hov) with he | ⟨p, _, he⟩
    · rw [he]; exact h
    · rw [he] at hnm; simp at hnm

theorem mode1Frame_inv (g : GameState) (h : StateInv g)
    (hov : g.game_over = false) : StateInv (mode1Frame g) := by
  unfold mode1Frame
  split <;> exact handle_ai_turn_inv g _ (midInv_of_stateInv h hov)

/-- The master invariant theorem: `StateInv` holds at every reachable
configuration. -/
theorem reachable_stateInv (p : Nat × GameState) (h : Reachable p) :
    StateInv p.2 := by
  obtain ⟨m0, _, hsteps⟩ := h
  induction hsteps with
  | refl => exact stateInv_reset
  | tail hab hstep ih =>
    cases hstep with
    | hmove g k hov hpm => exact mode0MoveFrame_inv g k ih hov
    | hclick g c hov hpm => exact clickWall_inv g c ih
    | aiframe g hov => exact mode1Frame_inv g ih hov
    | replay m g hov => exact stateInv_reset
    | modeswitch m g hov => exact stateInv_reset
    | home m g mNew hov hm => exact stateInv_reset

/-- C6.  At every reachable configuration both wall counters are at most
`MAX_WALLS_PER_PLAYER`; a click with the player's counter at the cap leaves
the state unchanged, and an AI turn with the acting side's counter at the cap
commits no wall and increments no counter. -/
theorem claim_C6_wall_budget :
    (∀ p : Nat × GameState, Reachable p →
      p.2.player_walls_used ≤ MAX_WALLS_PER_PLAYER ∧
      p.2.ai_walls_used ≤ MAX_WALLS_PER_PLAYER) ∧
    (∀ (g : GameState) (c : Cell),
      g.player_walls_used = MAX_WALLS_PER_PLAYER → clickWall g c = g) ∧
    (∀ (g : GameState) (b : Bool),
      (if b then g.player_walls_used else g.ai_walls_used) =
        MAX_WALLS_PER_PLAYER →
      (handle_ai_turn g b).walls = g.walls ∧
      (handle_ai_turn g b).player_walls_used = g.player_walls_used ∧
      (handle_ai_turn g b).ai_walls_used = g.ai_walls_used) := by
  refine ⟨?_, ?_, ?_⟩
  · intro p hr
    have h := reachable_stateInv p hr
    exact ⟨h.1, h.2.1⟩
  · intro g c hmax
    simp only [clickWall]
    split
    case isFalse _ => rfl
    case isTrue _ =>
      split
      case isTrue _ => rfl
      case isFalse _ =>
        split
        case isTrue _ => rfl
        case isFalse hbud => exact absurd hmax.ge hbud
  · intro g b hmax
    rcases aiWallPhase_cases { g with turn_counter := g.turn_counter + 1 } b with
      hW | ⟨block, rest, _, _, _, hbud, hW⟩
    · unfold handle_ai_turn
      rw [hW]
      refine ⟨?_, ?_, ?_⟩
      · rw [winCheck_walls, aiMovePhase_walls]
      · rw [winCheck_player_walls_used, aiMovePhase_player_walls_used]
      · rw [winCheck_ai_walls_used, aiMovePhase_ai_walls_used]
    · exfalso
      cases b
      · simp only [Bool.false_eq_true, if_false] at hbud hmax
        exact absurd (show g.ai_walls_used < MAX_WALLS_PER_PLAYER from hbud)
          (by omega)
      · simp only [if_true] at hbud hmax
        exact absurd (show g.player_walls_used < MAX_WALLS_PER_PLAYER from hbud)
          (by omega)

/-- Witness for C6 at concrete inputs: the fresh game for the counters, and
capped literal states for the two rejection clauses. -/
theorem claim_C6_wall_budget_witness :
    (reset_game.player_walls_used ≤ MAX_WALLS_PER_PLAYER ∧
      reset_game.ai_walls_used ≤ MAX_WALLS_PER_PLAYER) ∧
    clickWall ⟨(1, 4), (9, 4), [], 10, 0, 0, false, "", false⟩ (5, 5) =
      ⟨(1, 4), (9, 4), [], 10, 0, 0, false, "", false⟩ ∧
    ((handle_ai_turn ⟨(1, 4), (9, 4), [], 0, 10, 0, false, "", false⟩
        false).walls = [] ∧
      (handle_ai_turn ⟨(1, 4), (9, 4), [], 0, 10, 0, false, "", false⟩
        false).player_walls_used = 0 ∧
      (handle_ai_turn ⟨(1, 4), (9, 4), [], 0, 10, 0, false, "", false⟩
        false).ai_walls_used = 10) :=
  ⟨claim_C6_wall_budget.1 (0, reset_game) ⟨0, Or.inl rfl, .refl⟩,
    claim_C6_wall_budget.2.1 ⟨(1, 4), (9, 4), [], 10, 0, 0, false, "", false⟩
      (5, 5) rfl,
    claim_C6_wall_budget.2.2 ⟨(1, 4), (9, 4), [], 0, 10, 0, false, "", false⟩
      false rfl⟩

/-- C8.  Rejected requests are no-ops: at a reachable, in-play configuration,
a keydown whose target is out of bounds or walled (and is not the player's
goal) moves no side; and a click rejected for any of the four reasons
(occupied or goal cell, already a wall, budget spent, or a side would be
trapped) returns the state unchanged. -/
theorem claim_C8_rejected_noop :
    (∀ (m : Nat) (g : GameState) (k : MoveKey), Reachable (m, g) →
      g.game_over = false →
      (¬ inInterior (moveTarget g k) ∨ moveTarget g k ∈ g.walls) →
      moveTarget g k ≠ player_goal →
      (humanMove g k).player_pos = g.player_pos ∧
      (humanMove g k).ai_pos = g.ai_pos) ∧
    (∀ (g : GameState) (c : Cell),
      ((c = g.player_pos ∨ c = g.ai_pos ∨ c = player_goal ∨ c = ai_goal) ∨
        c ∈ g.walls ∨
        MAX_WALLS_PER_PLAYER ≤ g.player_walls_used ∨
        a_star g.player_pos player_goal (wallAdd g.walls c) = [] ∨
        a_star g.ai_pos ai_goal (wallAdd g.walls c) = []) →
      clickWall g c = g) := by
  refine ⟨?_, ?_⟩
  · intro m g k hr hov hbad hng
    obtain ⟨hr1, hr2, hc1, hc2⟩ : 1 ≤ g.player_pos.1 ∧ g.player_pos.1 < 10 ∧
        0 ≤ g.player_pos.2 ∧ g.player_pos.2 < 9 := by
      simpa [inInterior, TOTAL_ROWS, BOARD_ROWS, GOAL_ROWS, BOARD_COLS]
        using (reachable_stateInv _ hr).2.2.2.2 hov
    cases k
    case w =>
      have hng2 : (g.player_pos.1 - 1, g.player_pos.2) ≠ player_goal := hng
      have hbad2 : ¬ inInterior (g.player_pos.1 - 1, g.player_pos.2) ∨
          (g.player_pos.1 - 1, g.player_pos.2) ∈ g.walls := hbad
      have hrej : ¬ ((g.player_pos.1 - 1, g.player_pos.2) = player_goal ∨
          (g.player_pos.1 > 1 ∧
            (g.player_pos.1 - 1, g.player_pos.2) ∉ g.walls)) := by
        rintro (he | ⟨hb, hw⟩)
        · exact hng2 he
        · rcases hbad2 with hni | hmem
          · apply hni
            simp only [inInterior, TOTAL_ROWS, BOARD_ROWS, GOAL_ROWS,
              BOARD_COLS]
            omega
          · exact hw hmem
      simp only [humanMove]
      rw [if_neg hrej]
      exact ⟨rfl, rfl⟩
    case s =>
      have hng2 : (g.player_pos.1 + 1, g.player_pos.2) ≠ player_goal := hng
      have hbad2 : ¬ inInterior (g.player_pos.1 + 1, g.player_pos.2) ∨
          (g.player_pos.1 + 1, g.player_pos.2) ∈ g.walls := hbad
      have hrej : ¬ ((g.player_pos.1 + 1, g.player_pos.2) = player_goal ∨
          (g.player_pos.1 < TOTAL_ROWS - 2 ∧
            (g.player_pos.1 + 1, g.player_pos.2) ∉ g.walls)) := by
        rintro (he | ⟨hb, hw⟩)
        · exact hng2 he
        · rcases hbad2 with hni | hmem
          · apply hni
            simp only [inInterior, TOTAL_ROWS, BOARD_ROWS, GOAL_ROWS,
              BOARD_COLS] at hb ⊢
            omega
          · exact hw hmem
      simp only [humanMove]
      rw [if_neg hrej]
      exact ⟨rfl, rfl⟩
    case a =>
      have hbad2 : ¬ inInterior (g.player_pos.1, g.player_pos.2 - 1) ∨
          (g.player_pos.1, g.player_pos.2 - 1) ∈ g.walls := hbad
      have hrej : ¬ (g.player_pos.2 > 0 ∧
          (g.player_pos.1, g.player_pos.2 - 1) ∉ g.walls) := by
        rintro ⟨hb, hw⟩
        rcases hbad2 with hni | hmem
        · apply hni
          simp only [inInterior, TOTAL_ROWS, BOARD_ROWS, GOAL_ROWS,
            BOARD_COLS]
          omega
        · exact hw hmem
      simp only [humanMove]
      rw [if_neg hrej]
      exact ⟨rfl, rfl⟩
    case d =>
      have hbad2 : ¬ inInterior (g.player_pos.1, g.player_pos.2 + 1) ∨
          (g.player_pos.1, g.player_pos.2 + 1) ∈ g.walls := hbad
      have hrej : ¬ (g.player_pos.2 < BOARD_COLS - 1 ∧
          (g.player_pos.1, g.player_pos.2 + 1) ∉ g.walls) := by
        rintro ⟨hb, hw⟩
        rcases hbad2 with hni | hmem
        · apply hni
          simp only [inInterior, TOTAL_ROWS, BOARD_ROWS, GOAL_ROWS,
            BOARD_COLS] at hb ⊢
          omega
        · exact hw hmem
      simp only [humanMove]
      rw [if_neg hrej]
      exact ⟨rfl, rfl⟩
  · intro g c hrej
    simp only [clickWall]
    split
    case isFalse _ => rfl
    case isTrue hfree =>
      split
      case isTrue _ => rfl
      case isFalse hnw =>
        split
        case isTrue _ => rfl
        case isFalse hbud =>
          split
          case isFalse _ => rfl
          case isTrue hg =>
            exfalso
            have hfree2 : ¬(c = g.player_pos ∨ c = g.ai_pos ∨
                c = player_goal ∨ c = ai_goal) := by simpa using hfree
            rcases hrej with hocc | hmem | hb | he1 | he2
            · exact hfree2 hocc
            · exact hnw hmem
            · exact hbud hb
            · exact hg.1 he1
            · exact hg.2 he2

/-- Witness for C8: on a fresh game, W targets the AI's goal row cell `(0,4)`
(out of bounds for the player) and is rejected; clicking the AI's goal cell
is rejected. -/
theorem claim_C8_rejected_noop_witness :
    ((humanMove reset_game .w).player_pos = reset_game.player_pos ∧
      (humanMove reset_game .w).ai_pos = reset_game.ai_pos) ∧
    clickWall reset_game (0, 4) = reset_game :=
  ⟨claim_C8_rejected_noop.1 0 reset_game .w ⟨0, Or.inl rfl, .refl⟩ rfl
      (by decide) (by decide),
    claim_C8_rejected_noop.2 reset_game (0, 4) (by decide)⟩

/-- C3 (amended).  At every reachable configuration a side's position is in
the wall set only when that side already stands on its own goal cell, and the
human click path commits only cells that are neither a current position nor a
goal.  (The unamended claim — that walls never contain positions or goals at
all — fails: the AI's blocking step can wall the opponent's goal cell, see
the counterexample.) -/
theorem claim_C3_walls_vs_positions :
    (∀ p : Nat × GameState, Reachable p →
      (p.2.player_pos ∈ p.2.walls → p.2.player_pos = player_goal) ∧
      (p.2.ai_pos ∈ p.2.walls → p.2.ai_pos = ai_goal)) ∧
    (∀ (g : GameState) (c : Cell), (clickWall g c).walls ≠ g.walls →
      c ≠ g.player_pos ∧ c ≠ g.ai_pos ∧ c ≠ player_goal ∧ c ≠ ai_goal ∧
      (clickWall g c).walls = wallAdd g.walls c) := by
  refine ⟨?_, ?_⟩
  · intro p hr
    have h := reachable_stateInv p hr
    exact ⟨h.2.2.1, h.2.2.2.1⟩
  · intro g c
    simp only [clickWall]
    split
    case isFalse _ => intro hne; exact absurd rfl hne
    case isTrue hfree =>
      split
      case isTrue _ => intro hne; exact absurd rfl hne
      case isFalse _ =>
        split
        case isTrue _ => intro hne; exact absurd rfl hne
        case isFalse _ =>
          split
          case isFalse _ => intro hne; exact absurd rfl hne
          case isTrue hg =>
            intro _
            have hfree2 : ¬(c = g.player_pos ∨ c = g.ai_pos ∨
                c = player_goal ∨ c = ai_goal) := by simpa using hfree
            push_neg at hfree2
            exact ⟨hfree2.1, hfree2.2.1, hfree2.2.2.1, hfree2.2.2.2, rfl⟩

/-- Witness for C3 at concrete inputs: the fresh game, and the committed
click at `(5,5)`. -/
theorem claim_C3_walls_vs_positions_witness :
    ((reset_game.player_pos ∈ reset_game.walls →
        reset_game.player_pos = player_goal) ∧
      (reset_game.ai_pos ∈ reset_game.walls →
        reset_game.ai_pos = ai_goal)) ∧
    ((5, 5) ≠ reset_game.player_pos ∧ (5, 5) ≠ reset_game.ai_pos ∧
      ((5, 5) : Cell) ≠ player_goal ∧ ((5, 5) : Cell) ≠ ai_goal ∧
      (clickWall reset_game (5, 5)).walls = wallAdd reset_game.walls (5, 5)) :=
  ⟨claim_C3_walls_vs_positions.1 (0, reset_game) ⟨0, Or.inl rfl, .refl⟩,
    claim_C3_walls_vs_positions.2 reset_game (5, 5) (by decide)⟩

/-- C9 (amended).  `handle_ai_turn` raises the game-over flag by the end of
any call that leaves a side on its goal; the player's goal condition selects
the message first; and once the flag is set, every frame transition is an
explicit reset.  (The unamended claim — flag set before the next side acts —
fails in mode 0: the human's goal-landing is followed in the same frame by
the full AI turn before the flag is set, see the counterexample.) -/
theorem claim_C9_game_over_discipline :
    (∀ (g : GameState) (b : Bool),
      ((handle_ai_turn g b).player_pos = player_goal ∨
        (handle_ai_turn g b).ai_pos = ai_goal) →
      (handle_ai_turn g b).game_over = true) ∧
    (∀ (g : GameState) (b : Bool),
      (handle_ai_turn g b).player_pos = player_goal →
      (handle_ai_turn g b).result_message =
        (if b then "Player AI reached the goal! Player AI wins!"
         else "You reached the AI\x27s goal! You win!")) ∧
    (∀ p q : Nat × GameState, Step p q → p.2.game_over = true →
      q.2 = reset_game) := by
  refine ⟨?_, ?_, ?_⟩
  · intro g b h
    unfold handle_ai_turn at h ⊢
    rw [winCheck_player_pos, winCheck_ai_pos] at h
    exact winCheck_sets_over _ b h
  · intro g b h
    unfold handle_ai_turn at h ⊢
    rw [winCheck_player_pos] at h
    exact winCheck_player_message _ b h
  · intro p q hstep hov
    cases hstep with
    | hmove g k h1 h2 => simp [h1] at hov
    | hclick g c h1 h2 => simp [h1] at hov
    | aiframe g h1 => simp [h1] at hov
    | replay m g h1 => rfl
    | modeswitch m g h1 => rfl
    | home m g mNew h1 hm => rfl

set_option maxRecDepth 100000 in
set_option maxHeartbeats 1000000 in
/-- Witness for C9: a player one step from its goal with the player-AI
acting, and a replay click from a finished literal state. -/
theorem claim_C9_game_over_discipline_witness :
    (handle_ai_turn ⟨(9, 4), (1, 4), [], 0, 0, 0, false, "", false⟩
        true).game_over = true ∧
    (handle_ai_turn ⟨(9, 4), (1, 4), [], 0, 0, 0, false, "", false⟩
        true).result_message = "Player AI reached the goal! Player AI wins!" ∧
    ((0, reset_game) : Nat × GameState).2 = reset_game :=
  ⟨claim_C9_game_over_discipline.1
      ⟨(9, 4), (1, 4), [], 0, 0, 0, false, "", false⟩ true (by decide),
    (claim_C9_game_over_discipline.2.1
      ⟨(9, 4), (1, 4), [], 0, 0, 0, false, "", false⟩ true (by decide)).trans
      (if_pos rfl),
    claim_C9_game_over_discipline.2.2 (0, ⟨(1, 4), (9, 4), [], 0, 0, 0, true,
      "", false⟩) (0, reset_game)
      (Step.replay 0 ⟨(1, 4), (9, 4), [], 0, 0, 0, true, "", false⟩ rfl) rfl⟩

set_option maxRecDepth 1000000 in
set_option maxHeartbeats 20000000 in
/-- trace frame 1: click (4, 3) (placed) -/
theorem cexF1 : clickWall reset_game (4, 3) = cexS1 := by decide

set_option maxRecDepth 1000000 in
set_option maxHeartbeats 20000000 in
/-- trace frame 2: click (9, 5) (placed) -/
theorem cexF2 : clickWall cexS1 (9, 5) = cexS2 := by decide

set_option maxRecDepth 1000000 in
set_option maxHeartbeats 20000000 in
/-- trace frame 3: click (2, 5) (placed) -/
theorem cexF3 : clickWall cexS2 (2, 5) = cexS3 := by decide

set_option maxRecDepth 1000000 in
set_option maxHeartbeats 20000000 in
/-- trace frame 4: click (1, 3) (placed) -/
theorem cexF4 : clickWall cexS3 (1, 3) = cexS4 := by decide

set_option maxRecDepth 1000000 in
set_option maxHeartbeats 20000000 in
/-- trace frame 5: click (1, 5) (placed) -/
theorem cexF5 : clickWall cexS4 (1, 5) = cexS5 := by decide

set_option maxRecDepth 1000000 in
set_option maxHeartbeats 20000000 in
/-- trace frame 6: click (2, 3) (placed) -/
theorem cexF6 : clickWall cexS5 (2, 3) = cexS6 := by decide

set_option maxRecDepth 1000000 in
set_option maxHeartbeats 20000000 in
/-- trace frame 7: move s -/
theorem cexF7 : mode0MoveFrame cexS6 .s = cexS7 := by decide

set_option maxRecDepth 1000000 in
set_option maxHeartbeats 20000000 in
/-- trace frame 8: click (3, 3) (placed) -/
theorem cexF8 : clickWall cexS7 (3, 3) = cexS8 := by decide

set_option maxRecDepth 1000000 in
set_option maxHeartbeats 20000000 in
/-- trace frame 9: click (3, 5) (placed) -/
theorem cexF9 : clickWall cexS8 (3, 5) = cexS9 := by decide

set_option maxRecDepth 1000000 in
set_option maxHeartbeats 20000000 in
/-- trace frame 10: move s -/
theorem cexF10 : mode0MoveFrame cexS9 .s = cexS10 := by decide

set_option maxRecDepth 1000000 in
set_option maxHeartbeats 20000000 in
/-- trace frame 11: click (7, 3) (placed) -/
theorem cexF11 : clickWall cexS10 (7, 3) = cexS11 := by decide

set_option maxRecDepth 1000000 in
set_option maxHeartbeats 20000000 in
/-- trace frame 12: click (6, 4) (placed) -/
theorem cexF12 : clickWall cexS11 (6, 4) = cexS12 := by decide

set_option maxRecDepth 1000000 in
set_option maxHeartbeats 20000000 in
/-- trace frame 13: move s -/
theorem cexF13 : mode0MoveFrame cexS12 .s = cexS13 := by decide

set_option maxRecDepth 1000000 in
set_option maxHeartbeats 20000000 in
/-- trace frame 14: move d -/
theorem cexF14 : mode0MoveFrame cexS13 .d = cexS14 := by decide

set_option maxRecDepth 1000000 in
set_option maxHeartbeats 20000000 in
/-- trace frame 15: move d -/
theorem cexF15 : mode0MoveFrame cexS14 .d = cexS15 := by decide

set_option maxRecDepth 1000000 in
set_option maxHeartbeats 20000000 in
/-- trace frame 16: move d -/
theorem cexF16 : mode0MoveFrame cexS15 .d = cexS16 := by decide

set_option maxRecDepth 1000000 in
set_option maxHeartbeats 20000000 in
/-- trace frame 17: move d -/
theorem cexF17 : mode0MoveFrame cexS16 .d = cexS17 := by decide

set_option maxRecDepth 1000000 in
set_option maxHeartbeats 20000000 in
/-- trace frame 18: move s -/
theorem cexF18 : mode0MoveFrame cexS17 .s = cexS18 := by decide

set_option maxRecDepth 1000000 in
set_option maxHeartbeats 20000000 in
/-- trace frame 19: move s -/
theorem cexF19 : mode0MoveFrame cexS18 .s = cexS19 := by decide

set_option maxRecDepth 1000000 in
set_option maxHeartbeats 20000000 in
/-- trace frame 20: move a -/
theorem cexF20 : mode0MoveFrame cexS19 .a = cexS20 := by decide

set_option maxRecDepth 1000000 in
set_option maxHeartbeats 20000000 in
/-- trace frame 21: move a -/
theorem cexF21 : mode0MoveFrame cexS20 .a = cexS21 := by decide

set_option maxRecDepth 1000000 in
set_option maxHeartbeats 20000000 in
/-- trace frame 22: move a -/
theorem cexF22 : mode0MoveFrame cexS21 .a = cexS22 := by decide

set_option maxRecDepth 1000000 in
set_option maxHeartbeats 20000000 in
/-- trace frame 23: move s -/
theorem cexF23 : mode0MoveFrame cexS22 .s = cexS23 := by decide

set_option maxRecDepth 1000000 in
set_option maxHeartbeats 20000000 in
/-- trace frame 24: move a -/
theorem cexF24 : mode0MoveFrame cexS23 .a = cexS24 := by decide

set_option maxRecDepth 1000000 in
set_option maxHeartbeats 20000000 in
/-- trace frame 25: move s -/
theorem cexF25 : mode0MoveFrame cexS24 .s = cexS25 := by decide

set_option maxRecDepth 1000000 in
set_option maxHeartbeats 20000000 in
/-- trace frame 26: move s -/
theorem cexF26 : mode0MoveFrame cexS25 .s = cexS26 := by decide

set_option maxRecDepth 1000000 in
set_option maxHeartbeats 20000000 in
/-- trace frame 27: move s -/
theorem cexF27 : mode0MoveFrame cexS26 .s = cexS27 := by decide

/-- The counterexample run is a `Step` chain from a fresh mode-0 game. -/
theorem cexReach26 :
    Relation.ReflTransGen Step (0, reset_game) (0, cexS26) := by
  have s1 : Step (0, reset_game) (0, cexS1) :=
    cexF1 ▸ Step.hclick reset_game (4, 3) rfl rfl
  have s2 : Step (0, cexS1) (0, cexS2) :=
    cexF2 ▸ Step.hclick cexS1 (9, 5) rfl rfl
  have s3 : Step (0, cexS2) (0, cexS3) :=
    cexF3 ▸ Step.hclick cexS2 (2, 5) rfl rfl
  have s4 : Step (0, cexS3) (0, cexS4) :=
    cexF4 ▸ Step.hclick cexS3 (1, 3) rfl rfl
  have s5 : Step (0, cexS4) (0, cexS5) :=
    cexF5 ▸ Step.hclick cexS4 (1, 5) rfl rfl
  have s6 : Step (0, cexS5) (0, cexS6) :=
    cexF6 ▸ Step.hclick cexS5 (2, 3) rfl rfl
  have s7 : Step (0, cexS6) (0, cexS7) :=
    cexF7 ▸ Step.hmove cexS6 .s rfl rfl
  have s8 : Step (0, cexS7) (0, cexS8) :=
    cexF8 ▸ Step.hclick cexS7 (3, 3) rfl rfl
  have s9 : Step (0, cexS8) (0, cexS9) :=
    cexF9 ▸ Step.hclick cexS8 (3, 5) rfl rfl
  have s10 : Step (0, cexS9) (0, cexS10) :=
    cexF10 ▸ Step.hmove cexS9 .s rfl rfl
  have s11 : Step (0, cexS10) (0, cexS11) :=
    cexF11 ▸ Step.hclick cexS10 (7, 3) rfl rfl
  have s12 : Step (0, cexS11) (0, cexS12) :=
    cexF12 ▸ Step.hclick cexS11 (6, 4) rfl rfl
  have s13 : Step (0, cexS12) (0, cexS13) :=
    cexF13 ▸ Step.hmove cexS12 .s rfl rfl
  have s14 : Step (0, cexS13) (0, cexS14) :=
    cexF14 ▸ Step.hmove cexS13 .d rfl rfl
  have s15 : Step (0, cexS14) (0, cexS15) :=
    cexF15 ▸ Step.hmove cexS14 .d rfl rfl
  have s16 : Step (0, cexS15) (0, cexS16) :=
    cexF16 ▸ Step.hmove cexS15 .d rfl rfl
  have s17 : Step (0, cexS16) (0, cexS17) :=
    cexF17 ▸ Step.hmove cexS16 .d rfl rfl
  have s18 : Step (0, cexS17) (0, cexS18) :=
    cexF18 ▸ Step.hmove cexS17 .s rfl rfl
  have s19 : Step (0, cexS18) (0, cexS19) :=
    cexF19 ▸ Step.hmove cexS18 .s rfl rfl
  have s20 : Step (0, cexS19) (0, cexS20) :=
    cexF20 ▸ Step.hmove cexS19 .a rfl rfl
  have s21 : Step (0, cexS20) (0, cexS21) :=
    cexF21 ▸ Step.hmove cexS20 .a rfl rfl
  have s22 : Step (0, cexS21) (0, cexS22) :=
    cexF22 ▸ Step.hmove cexS21 .a rfl rfl
  have s23 : Step (0, cexS22) (0, cexS23) :=
    cexF23 ▸ Step.hmove cexS22 .s rfl rfl
  have s24 : Step (0, cexS23) (0, cexS24) :=
    cexF24 ▸ Step.hmove cexS23 .a rfl rfl
  have s25 : Step (0, cexS24) (0, cexS25) :=
    cexF25 ▸ Step.hmove cexS24 .s rfl rfl
  have s26 : Step (0, cexS25) (0, cexS26) :=
    cexF26 ▸ Step.hmove cexS25 .s rfl rfl
  exact (((((((((((((((((((((((((Relation.ReflTransGen.refl.tail s1).tail s2).tail s3).tail s4).tail s5).tail s6).tail s7).tail s8).tail s9).tail s10).tail s11).tail s12).tail s13).tail s14).tail s15).tail s16).tail s17).tail s18).tail s19).tail s20).tail s21).tail s22).tail s23).tail s24).tail s25).tail s26

/-- One more winning keydown frame reaches the final state. -/
theorem cexReach27 :
    Relation.ReflTransGen Step (0, reset_game) (0, cexS27) :=
  cexReach26.tail (cexF27 ▸ Step.hmove cexS26 .s rfl rfl)

/-- C3 is refuted as stated: at the reachable configuration `cexS27` the
wall set contains the player's goal cell — which is also the player's
current position. -/
theorem claim_C3_counterexample :
    Reachable (0, cexS27) ∧ player_goal ∈ cexS27.walls ∧
    cexS27.player_pos ∈ cexS27.walls :=
  ⟨⟨0, Or.inl rfl, cexReach27⟩, by decide, by decide⟩

/-- C9 is refuted as stated: from the reachable configuration `cexS26` the
winning keydown puts the player on its goal with the flag still clear, yet
the same frame runs the full AI turn — the AI moves and the turn counter
advances — and only then is the flag set. -/
theorem claim_C9_counterexample :
    Reachable (0, cexS26) ∧ cexS26.game_over = false ∧
    (humanMove cexS26 .s).player_pos = player_goal ∧
    (humanMove cexS26 .s).game_over = false ∧
    mode0MoveFrame cexS26 .s =
      { handle_ai_turn (humanMove cexS26 .s) false with
          player_moved := false } ∧
    (mode0MoveFrame cexS26 .s).ai_pos ≠ cexS26.ai_pos ∧
    (mode0MoveFrame cexS26 .s).turn_counter = cexS26.turn_counter + 1 ∧
    (mode0MoveFrame cexS26 .s).game_over = true :=
  ⟨⟨0, Or.inl rfl, cexReach26⟩, rfl, by decide, by decide, by decide,
    by decide, by decide, by decide⟩

end WallChess
